import Mathlib

/-
  Verification of the madrid-restaurants-data collection/enrichment pipeline.

  JavaScript strings are modelled as lists of characters, JS numbers that the
  claims touch (identifiers, counters) as integers, and sentiment scores as
  rationals.  Impure boundaries (the places directory, the language service,
  the clock) are passed in as explicit oracle functions, so that every run of
  a pipeline component is a pure function of its inputs and oracle responses.
-/

set_option maxHeartbeats 1000000

abbrev Str := List Char

/-- JS whitespace characters relevant to String.prototype.trim / \s. -/
def isWs (c : Char) : Bool :=
  c == ' ' || c == '\t' || c == '\n' || c == '\r' || c == '\x0b' || c == '\x0c'

/-- Model of String.prototype.trim. -/
def jsTrim (s : Str) : Str :=
  ((s.dropWhile isWs).reverse.dropWhile isWs).reverse

/-- Decimal digit character for a digit value below ten. -/
def digitChar (d : Nat) : Char := Char.ofNat (48 + d)

/-- Repeated-division digit extraction; the fuel argument only serves the
    structural recursion and any fuel above the number works. -/
def natStrFuel : Nat → Nat → Str
  | 0, _ => []
  | fuel + 1, n =>
    if n < 10 then [digitChar n]
    else natStrFuel fuel (n / 10) ++ [digitChar (n % 10)]

/-- Model of JS number-to-string conversion for non-negative integers. -/
def natStr (n : Nat) : Str := natStrFuel (n + 1) n

/-- Model of JS number-to-string conversion for integers. -/
def intStr (i : Int) : Str :=
  if i < 0 then '-' :: natStr i.natAbs else natStr i.natAbs

/-- Model of JS String.prototype.split with a single-character separator. -/
def splitOnChar (c : Char) : Str → List Str
  | [] => [[]]
  | ch :: rest =>
    if ch = c then [] :: splitOnChar c rest
    else
      match splitOnChar c rest with
      | [] => [[ch]]
      | f :: fs => (ch :: f) :: fs

/-- Model of Array.prototype.join with a single-character separator. -/
def joinWith (sep : Char) : List Str → Str
  | [] => []
  | [x] => x
  | x :: xs => x ++ sep :: joinWith sep xs

/-- Association-list model of a JS Map: lookup of the first matching key. -/
def mapGet {β : Type} (m : List (Str × β)) (k : Str) : Option β :=
  (m.find? (fun e => e.1 == k)).map (·.2)

/-- Model of Map.prototype.has. -/
def mapHas {β : Type} (m : List (Str × β)) (k : Str) : Bool :=
  (mapGet m k).isSome

/-- Model of Map.prototype.set: overwrite in place, else append. -/
def mapSet {β : Type} (m : List (Str × β)) (k : Str) (v : β) : List (Str × β) :=
  if mapHas m k then m.map (fun e => if e.1 == k then (k, v) else e)
  else m ++ [(k, v)]

/-- The keys of a list in first-encounter order, starting from an accumulator. -/
def firstSeenAcc (acc : List Str) (l : List Str) : List Str :=
  l.foldl (fun a k => if k ∈ a then a else a ++ [k]) acc

/-- The distinct keys of a list in first-encounter order. -/
def firstSeen (l : List Str) : List Str := firstSeenAcc [] l

/-- Index of the first occurrence of a key in a list (length when absent). -/
def idxOfK (k : Str) : List Str → Nat
  | [] => 0
  | a :: as => if a = k then 0 else idxOfK k as + 1

/-- The map assigning value f (i+1) to the i-th key of K, offset by start. -/
def idxMapAux {β : Type} (f : Nat → β) (start : Nat) : List Str → List (Str × β)
  | [] => []
  | k :: ks => (k, f start) :: idxMapAux f (start + 1) ks

/-- The map sending the i-th key of K (0-based) to f (i+1). -/
def idxMap {β : Type} (f : Nat → β) (K : List Str) : List (Str × β) :=
  idxMapAux f 1 K

/- ===== Data model (src/types.ts and the draft types used by part_002) ===== -/

/-- A review row, as in src/types.ts. -/
structure Rating where
  user_id : Int
  restaurant_id : Str
  rating : Rat
  review_text : Str
  date : Str
  source_user_name : Str
  deriving DecidableEq, Repr

/-- A sentiment row in the shape handled by the identifier reconciler
    (part_002): user_id and restaurant_id may be absent (undefined) before
    reconciliation, as on the rows produced by the draft enricher. -/
structure ReviewSentiment where
  review_id : Str
  user_id : Option Int
  restaurant_id : Option Str
  overall_score : Rat
  overall_magnitude : Rat
  food_score : Option Rat
  service_score : Option Rat
  value_score : Option Rat
  ambiance_score : Option Rat
  language : Str
  emotions : Str
  deriving DecidableEq, Repr

/- ===== cleanInvalidIds (part_002 lines 142-162) ===== -/

inductive CleanKind where
  | ratings
  | sentiment
  deriving DecidableEq, Repr

/-- Remove rows where user_id or review_id is 0.  The TS function is generic
    over any row shape with optional user_id / review_id fields; the two
    accessor arguments model that structural typing (an absent field reads
    as undefined, i.e. none). -/
def cleanInvalidIds {T : Type} (userIdOf : T → Option Int) (reviewIdOf : T → Option Str)
    (data : List T) (kind : CleanKind) : List T :=
  match kind with
  | CleanKind.ratings =>
    data.filter (fun item => userIdOf item != some 0)
  | CleanKind.sentiment =>
    data.filter (fun item =>
      (userIdOf item != some 0) &&
      (reviewIdOf item != some ['0']) && (reviewIdOf item != none))

/-- Field access user_id on a Rating (always present). -/
def ratingUserId (r : Rating) : Option Int := some r.user_id

/-- Field access review_id on a Rating (absent: Ratings have no review_id). -/
def ratingReviewId (_ : Rating) : Option Str := none

/-- Field access user_id on a ReviewSentiment row. -/
def sentimentUserId (s : ReviewSentiment) : Option Int := s.user_id

/-- Field access review_id on a ReviewSentiment row (always present). -/
def sentimentReviewId (s : ReviewSentiment) : Option Str := some s.review_id

/- ===== Sentiment enricher (src/sentiment.ts, and the draft in src/index.ts) ===== -/

/-- Lowercasing, as in String.prototype.toLowerCase (ASCII mapping). -/
def lowerStr (s : Str) : Str := s.map Char.toLower

/-- Model of String.prototype.includes: substring test. -/
def jsIncludes (hay needle : Str) : Bool :=
  match hay with
  | [] => needle.isEmpty
  | c :: rest => List.isPrefixOf needle (c :: rest) || jsIncludes rest needle

/-- Model of String.prototype.split on the regex of whitespace runs. -/
def splitWsAux : Str → Str → List Str
  | [], acc => [acc.reverse]
  | c :: rest, acc =>
    if isWs c then acc.reverse :: splitWsAux (rest.dropWhile isWs) []
    else splitWsAux rest (c :: acc)
  termination_by s _ => s.length
  decreasing_by
    · exact Nat.lt_succ_of_le ((List.dropWhile_sublist _).length_le)
    · exact Nat.lt_succ_self _

def splitWs (s : Str) : List Str := splitWsAux s []

def spanishWords : List Str :=
  (["el", "la", "los", "las", "un", "una", "es", "son", "y", "o", "pero", "muy",
    "bueno", "buena", "malo", "mala", "comida", "servicio", "restaurante",
    "excelente", "bien", "mal"]).map (·.data)

/-- Heuristic language detection from src/sentiment.ts. -/
def detectLanguage (text : Str) : Str :=
  let words := splitWs (lowerStr text)
  let spanishWordCount := (words.filter (fun word => spanishWords.contains word)).length
  if spanishWordCount ≥ 2 ∨ ((spanishWordCount : Rat) / (words.length : Rat) > 1/10) then
    "es".data
  else
    "en".data

def foodTerms : List Str :=
  (["food", "meal", "dish", "taste", "flavor", "menu", "cuisine", "delicious",
    "comida", "plato"]).map (·.data)

def serviceTerms : List Str :=
  (["service", "staff", "waiter", "waitress", "server", "attention", "friendly",
    "servicio", "atención"]).map (·.data)

def valueTerms : List Str :=
  (["price", "value", "expensive", "cheap", "worth", "cost", "affordable",
    "precio", "caro", "barato"]).map (·.data)

def ambianceTerms : List Str :=
  (["ambiance", "atmosphere", "decor", "environment", "music", "noise", "vibe",
    "ambiente", "decoración"]).map (·.data)

/-- One sentence of the language-analysis response; text collapses the
    sentence.text.content access path, score the sentence.sentiment.score one. -/
structure ApiSentence where
  text : Option Str
  score : Option Rat
  deriving DecidableEq, Repr

/-- The document-level response of the language-analysis service. -/
structure ApiResult where
  docScore : Option Rat
  docMagnitude : Option Rat
  sentences : List ApiSentence
  deriving DecidableEq, Repr

/-- Running pairwise-average update for one aspect on one sentence. -/
def aspectUpdate (terms : List Str) (text : Str) (sentenceScore : Rat)
    (cur : Option Rat) : Option Rat :=
  if terms.any (fun term => jsIncludes text term) then
    some (match cur with
          | none => sentenceScore
          | some prev => (prev + sentenceScore) / 2)
  else cur

structure AspectScores where
  food : Option Rat
  service : Option Rat
  value : Option Rat
  ambiance : Option Rat
  deriving DecidableEq, Repr

def aspectStep (acc : AspectScores) (sen : ApiSentence) : AspectScores :=
  let text := lowerStr (sen.text.getD [])
  let sentenceScore := sen.score.getD 0
  { food := aspectUpdate foodTerms text sentenceScore acc.food
    service := aspectUpdate serviceTerms text sentenceScore acc.service
    value := aspectUpdate valueTerms text sentenceScore acc.value
    ambiance := aspectUpdate ambianceTerms text sentenceScore acc.ambiance }

/-- The sentence loop of analyzeReviewSentiment deriving the four aspects. -/
def aspectScores (sentences : List ApiSentence) : AspectScores :=
  sentences.foldl aspectStep ⟨none, none, none, none⟩

/-- The emotion-band classification shared by both enricher drafts. -/
def emotionsFor (score magnitude : Rat) : List Str :=
  (if score > 7/10 ∧ magnitude > 3/2 then ["joy".data] else []) ++
  ((if score > 1/2 ∧ score ≤ 7/10 then ["satisfaction".data] else []) ++
  ((if score > 0 ∧ score ≤ 1/2 then ["contentment".data] else []) ++
  ((if score < 0 ∧ score ≥ -(1/2) then ["disappointment".data] else []) ++
  ((if score < -(1/2) ∧ score ≥ -(7/10) then ["frustration".data] else []) ++
  (if score < -(7/10) then ["anger".data] else [])))))

/-- Model of JSON.stringify on a list of plain labels. -/
def jsonStringList (es : List Str) : Str :=
  '[' :: (joinWith ',' (es.map (fun e => '"' :: (e ++ ['"']))) ++ [']'])

/-- The transient review key of the src/index.ts enricher draft. -/
def tkey (uid : Int) (rid : Str) : Str := intStr uid ++ '_' :: rid

/-- The transient review-map key of src/sentiment.ts (includes the date). -/
def tkey3 (uid : Int) (rid : Str) (date : Str) : Str :=
  intStr uid ++ '_' :: (rid ++ '_' :: date)

/-- The record built per review by src/sentiment.ts (absent aspects are
    coalesced to 0 there); rid is the dense id drawn from the review map. -/
def processReviewTs (review : Rating) (res : ApiResult) (rid : Str) : ReviewSentiment :=
  let asp := aspectScores res.sentences
  let score := res.docScore.getD 0
  let magnitude := res.docMagnitude.getD 0
  { review_id := rid
    user_id := some review.user_id
    restaurant_id := some review.restaurant_id
    overall_score := score
    overall_magnitude := magnitude
    food_score := some (asp.food.getD 0)
    service_score := some (asp.service.getD 0)
    value_score := some (asp.value.getD 0)
    ambiance_score := some (asp.ambiance.getD 0)
    language := detectLanguage review.review_text
    emotions := jsonStringList (emotionsFor score magnitude) }

/-- The row shape returned by the src/index.ts enricher draft, matching the
    ReviewSentiment interface of src/types.ts (aspects stay null when absent). -/
structure ReviewSentimentIdx where
  review_id : Str
  overall_score : Rat
  overall_magnitude : Rat
  food_score : Option Rat
  service_score : Option Rat
  value_score : Option Rat
  ambiance_score : Option Rat
  language : Str
  emotions : Str
  deriving DecidableEq, Repr

/-- The record built per review by the src/index.ts enricher draft. -/
def processReviewIdx (review : Rating) (res : ApiResult) : ReviewSentimentIdx :=
  let asp := aspectScores res.sentences
  let score := res.docScore.getD 0
  let magnitude := res.docMagnitude.getD 0
  { review_id := tkey review.user_id review.restaurant_id
    overall_score := score
    overall_magnitude := magnitude
    food_score := asp.food
    service_score := asp.service
    value_score := asp.value
    ambiance_score := asp.ambiance
    language := detectLanguage review.review_text
    emotions := jsonStringList (emotionsFor score magnitude) }

/-- The empty / whitespace-only skip of analyzeReviewSentiment. -/
def isBlankStr (s : Str) : Bool := s.isEmpty || jsTrim s == []

/-- One review step of src/sentiment.ts analyzeReviewSentiment.  The batching
    by 10 with Promise.all preserves input order and the inter-batch delay is
    timing only, so a run is modelled as an in-order fold; a review whose
    analysis throws is modelled by the oracle returning none. -/
def analyzeTsStep (analyze : Str → Option ApiResult)
    (acc : List ReviewSentiment × List (Str × Str) × Nat) (review : Rating) :
    List ReviewSentiment × List (Str × Str) × Nat :=
  if isBlankStr review.review_text then acc
  else
    match analyze review.review_text with
    | none => acc
    | some res =>
      let key := tkey3 review.user_id review.restaurant_id review.date
      let rm := if mapHas acc.2.1 key then acc.2.1 else mapSet acc.2.1 key (natStr acc.2.2)
      let nid := if mapHas acc.2.1 key then acc.2.2 else acc.2.2 + 1
      (acc.1 ++ [processReviewTs review res ((mapGet rm key).getD [])], rm, nid)

/-- src/sentiment.ts analyzeReviewSentiment as a function of the reviews and
    the language-service responses. -/
def analyzeReviewSentimentTs (reviews : List Rating)
    (analyze : Str → Option ApiResult) : List ReviewSentiment :=
  (reviews.foldl (analyzeTsStep analyze) ([], [], 1)).1

/-- Concrete review used to exercise the aspect-scoring claims. -/
def c4Review : Rating :=
  ⟨1, "r1".data, 5, "An okay spot".data, "2024-01-02".data, "Ana".data⟩

/-- Concrete language-service response with one sentence mentioning no
    ambiance keyword. -/
def c4Res : ApiResult :=
  ⟨some (1/2), some 1, [⟨some "An okay spot".data, some (1/2)⟩]⟩

/-- Ten concrete reviews of which exactly three have blank text. -/
def c6Reviews : List Rating :=
  [⟨1, "r1".data, 5, "tasty".data, "d".data, "a".data⟩,
   ⟨2, "r1".data, 4, "".data, "d".data, "b".data⟩,
   ⟨3, "r1".data, 3, "fine".data, "d".data, "c".data⟩,
   ⟨4, "r1".data, 2, "  ".data, "d".data, "d".data⟩,
   ⟨5, "r1".data, 1, "meh".data, "d".data, "e".data⟩,
   ⟨6, "r2".data, 5, "wow".data, "d".data, "f".data⟩,
   ⟨7, "r2".data, 4, " ".data, "d".data, "g".data⟩,
   ⟨8, "r2".data, 3, "okay".data, "d".data, "h".data⟩,
   ⟨9, "r2".data, 2, "bad".data, "d".data, "i".data⟩,
   ⟨10, "r2".data, 1, "poor".data, "d".data, "j".data⟩]

/- ===== Identifier reconciler (part_002) ===== -/

/-- One step of reassignUserIds: the composite key is the display name (the
    restaurant part is commented out in the source); a fresh id is drawn on
    first encounter.  getD 0 models the non-null assertion on the map lookup,
    which provably always succeeds. -/
def reassignUserIdsStep (acc : List Rating × List (Str × Int) × Int)
    (rating : Rating) : List Rating × List (Str × Int) × Int :=
  let compositeKey := rating.source_user_name
  let userMap := if mapHas acc.2.1 compositeKey then acc.2.1
                 else mapSet acc.2.1 compositeKey acc.2.2
  let nextUserId := if mapHas acc.2.1 compositeKey then acc.2.2 else acc.2.2 + 1
  (acc.1 ++ [{ rating with user_id := (mapGet userMap compositeKey).getD 0 }],
   userMap, nextUserId)

/-- part_002 reassignUserIds: rewrite every rating's user_id to the id shared
    by its display name, assigning fresh ids from 1 in first-encounter order. -/
def reassignUserIds (ratings : List Rating) : List Rating :=
  (ratings.foldl reassignUserIdsStep ([], [], 1)).1

/-- The (restaurant_id, review_text) join predicate of the old/new rating match. -/
def matchesOld (o n : Rating) : Bool :=
  n.restaurant_id == o.restaurant_id && n.review_text == o.review_text

/-- One old rating's contribution to the old-to-new user id lookup: find the
    first new rating with the same restaurant and review text. -/
def buildMappingStep (newRatings : List Rating) (m : List (Str × Int))
    (o : Rating) : List (Str × Int) :=
  match newRatings.find? (fun n => matchesOld o n) with
  | some matching => mapSet m (tkey o.user_id o.restaurant_id) matching.user_id
  | none => m

/-- The old_user_id_restaurant_id to new-global-user_id lookup built by
    reassignReviewSentimentIds from the old and new rating sets. -/
def buildNewUserMapping (oldRatings newRatings : List Rating) : List (Str × Int) :=
  oldRatings.foldl (buildMappingStep newRatings) []

/-- JS template-literal stringification of a possibly-undefined string. -/
def optStr (o : Option Str) : Str := o.getD "undefined".data

/-- The transient key rebuilt from a sentiment row's review_id: the row's
    review_id is split on underscores and the first two segments joined back. -/
def transientKey (s : ReviewSentiment) : Str :=
  let parts := splitOnChar '_' s.review_id
  optStr parts.head? ++ '_' :: optStr (parts.get? 1)

/-- One step of reassignReviewSentimentIds over one sentiment row. -/
def reassignStep (numap : List (Str × Int))
    (acc : List ReviewSentiment × List (Str × Str) × Nat) (s : ReviewSentiment) :
    List ReviewSentiment × List (Str × Str) × Nat :=
  let parts := splitOnChar '_' s.review_id
  let restaurantId := parts.get? 1
  let key := transientKey s
  let globalUserId := (mapGet numap key).getD 0
  let reviewMap := if mapHas acc.2.1 key then acc.2.1
                   else mapSet acc.2.1 key (natStr acc.2.2)
  let nextReviewId := if mapHas acc.2.1 key then acc.2.2 else acc.2.2 + 1
  (acc.1 ++
    [{ s with
        restaurant_id := restaurantId
        user_id := some globalUserId
        review_id := (mapGet reviewMap key).getD [] }],
   reviewMap, nextReviewId)

/-- part_002 reassignReviewSentimentIds. -/
def reassignReviewSentimentIds (sentimentReviews : List ReviewSentiment)
    (oldRatings newRatings : List Rating) : List ReviewSentiment :=
  let numap := buildNewUserMapping oldRatings newRatings
  (sentimentReviews.foldl (reassignStep numap) ([], [], 1)).1

/- ===== Specification-side descriptions of the reconciler's output ===== -/

/-- The output row of the reconciler for input row s when it receives the new
    review id rid. -/
def outRow (numap : List (Str × Int)) (s : ReviewSentiment) (rid : Str) :
    ReviewSentiment :=
  { s with restaurant_id := (splitOnChar '_' s.review_id).get? 1,
           user_id := some ((mapGet numap (transientKey s)).getD 0),
           review_id := rid }

/-- First-seen dense review-id assignment, with K the keys already assigned. -/
def assignedRows (numap : List (Str × Int)) :
    List Str → List ReviewSentiment → List ReviewSentiment
  | _, [] => []
  | K, s :: rest =>
    let key := transientKey s
    let K1 := if key ∈ K then K else K ++ [key]
    outRow numap s (natStr (idxOfK key K1 + 1)) :: assignedRows numap K1 rest

/-- A rating with its user_id field replaced. -/
def withUserId (r : Rating) (v : Int) : Rating := { r with user_id := v }

/-- First-seen dense user-id assignment keyed by display name. -/
def assignedRatings : List Str → List Rating → List Rating
  | _, [] => []
  | K, r :: rest =>
    let key := r.source_user_name
    let K1 := if key ∈ K then K else K ++ [key]
    withUserId r ((idxOfK key K1 + 1 : Nat) : Int) :: assignedRatings K1 rest

/- ===== Concrete fixtures for the reconciler claims ===== -/

/-- A sentiment row carrying only a review_id, as the draft enricher makes. -/
def mkSent (rid : Str) : ReviewSentiment :=
  ⟨rid, none, none, 0, 0, none, none, none, none, "en".data, "[]".data⟩

def c2Old : List Rating :=
  [⟨1, "r".data, 5, "a".data, "d".data, "ann".data⟩,
   ⟨2, "r".data, 4, "b".data, "d".data, "ann".data⟩]

def c2New : List Rating :=
  [⟨5, "r".data, 5, "a".data, "d".data, "ann".data⟩,
   ⟨5, "r".data, 4, "b".data, "d".data, "ann".data⟩]

def c2Sents : List ReviewSentiment :=
  [mkSent "3_r".data, mkSent "1_r".data, mkSent "2_r".data]

def c1Old : List Rating :=
  [⟨1, "a_b".data, 5, "t".data, "d".data, "u1".data⟩,
   ⟨1, "r".data, 5, "u".data, "d".data, "u2".data⟩]

def c1New : List Rating :=
  [⟨3, "a_b".data, 5, "t".data, "d".data, "u1".data⟩,
   ⟨0, "r".data, 5, "u".data, "d".data, "u2".data⟩]

def c1Sents : List ReviewSentiment :=
  [mkSent "1_a_b".data, mkSent "1_r".data]

def c1wOld : List Rating :=
  [⟨1, "rx".data, 5, "tasty stuff".data, "d1".data, "al".data⟩]

def c1wNew : List Rating :=
  [⟨2, "rx".data, 5, "tasty stuff".data, "d1".data, "al".data⟩]

def c1wSents : List ReviewSentiment := [mkSent "1_rx".data]

def c3Ratings : List Rating :=
  [⟨7, "r1".data, 5, "x".data, "d".data, "bob".data⟩,
   ⟨9, "r2".data, 4, "y".data, "d".data, "amy".data⟩,
   ⟨3, "r3".data, 3, "z".data, "d".data, "bob".data⟩]

/- ===== Tabular store (src/utils.ts custom CSV reader/writer) ===== -/

/-- The universe of JS field values the flat files carry.  JS numbers are
    carried as exact rationals; the pipeline's own tables only ever hold
    integral ones on the identifier columns the claims touch. -/
inductive JsValue where
  | num (q : Rat)
  | str (s : Str)
  | null
  deriving DecidableEq, Repr

/-- A JS record as an ordered list of key-value pairs (Object.keys order). -/
abbrev Rec := List (Str × JsValue)

def isDigitChar (c : Char) : Bool := 48 ≤ c.toNat && c.toNat ≤ 57

def digitVal (c : Char) : Nat := c.toNat - 48

def digitsToNat (s : Str) : Nat := s.foldl (fun a c => 10 * a + digitVal c) 0

/-- JS number-to-string conversion as performed by Array.prototype.join; the
    pipeline only writes integral numbers, and the non-integral branch is
    excluded by the round-trip theorem's hypotheses. -/
def jsNumToStr (q : Rat) : Str := if q.den = 1 then intStr q.num else ['?']

/-- Model of Number() on a trimmed decimal literal: optional sign, digits
    with optional fraction, optional exponent.  Hexadecimal, octal and binary
    literals are not modelled; the writer never produces them. -/
def decimalParse (t : Str) : Option Rat :=
  let sgn : Rat := if t.head? = some '-' then -1 else 1
  let t1 := if t.head? = some '+' ∨ t.head? = some '-' then t.drop 1 else t
  let intPart := t1.takeWhile isDigitChar
  let t2 := t1.dropWhile isDigitChar
  let fracPart := if t2.head? = some '.' then (t2.drop 1).takeWhile isDigitChar else []
  let t3 := if t2.head? = some '.' then (t2.drop 1).dropWhile isDigitChar else t2
  if intPart.length + fracPart.length = 0 then none
  else
    let mant : Rat := (digitsToNat intPart : Rat)
      + (digitsToNat fracPart : Rat) / ((10 : Rat) ^ fracPart.length)
    if t3 = [] then some (sgn * mant)
    else if t3.head? = some 'e' ∨ t3.head? = some 'E' then
      let r := t3.drop 1
      let esgn : Int := if r.head? = some '-' then -1 else 1
      let r1 := if r.head? = some '+' ∨ r.head? = some '-' then r.drop 1 else r
      let eDigits := r1.takeWhile isDigitChar
      let r2 := r1.dropWhile isDigitChar
      if eDigits.length = 0 ∨ r2 ≠ [] then none
      else some (sgn * mant * (10 : Rat) ^ (esgn * (digitsToNat eDigits : Int)))
    else none

/-- Model of Number(s): whitespace-only is 0, infinities are numbers (their
    value collapses to a placeholder the claims never rely on), everything
    else goes through the decimal grammar; none models NaN. -/
def jsNumber (s : Str) : Option Rat :=
  let t := jsTrim s
  if t = [] then some 0
  else if t = "Infinity".data ∨ t = "+Infinity".data ∨ t = "-Infinity".data then some 0
  else decimalParse t

/-- Model of the reader's !isNaN(Number(value)) test. -/
def jsIsNumeric (s : Str) : Bool := (jsNumber s).isSome

/-- Model of Number(value) where the reader stores it. -/
def jsToNum (s : Str) : Rat := (jsNumber s).getD 0

def hasSpecialChar (s : Str) : Bool :=
  s.contains ',' || s.contains '"' || s.contains '\n'

/-- value.replace of every quote by a doubled quote. -/
def escapeQuotes : Str → Str
  | [] => []
  | c :: rest => if c = '"' then '"' :: '"' :: escapeQuotes rest else c :: escapeQuotes rest

/-- One field as the writer serializes it: strings holding the delimiter,
    quote or newline are wrapped in quotes with embedded quotes doubled;
    other values are stringified by the join (null becomes the empty field). -/
def csvValue : JsValue → Str
  | JsValue.str s => if hasSpecialChar s then '"' :: (escapeQuotes s ++ ['"']) else s
  | JsValue.num q => jsNumToStr q
  | JsValue.null => []

/-- src/utils.ts writeToCSV on a uniform record list, returning the produced
    file content; writing an empty collection is a no-op (none). -/
def writeToCSV (data : List Rec) : Option Str :=
  match data with
  | [] => none
  | first :: _ =>
    let headers := joinWith ',' (first.map (·.1))
    let rows := data.map (fun item => joinWith ',' ((item.map (·.2)).map csvValue))
    some (joinWith '\n' (headers :: rows))

/-- The character loop of src/utils.ts parseCSVLine: current field characters
    are accumulated in reverse.  The fuel argument only serves the structural
    recursion (any fuel above the string length works), and the one-character
    case is split out to mirror the source's i < length - 1 lookahead bound. -/
def parseCSVLineFuel : Nat → Str → Str → Bool → List Str
  | 0, _, current, _ => [current.reverse]
  | _ + 1, [], current, _ => [current.reverse]
  | fuel + 1, [c], current, inQ =>
    if c = '"' then parseCSVLineFuel fuel [] current (!inQ)
    else if c = ',' ∧ inQ = false then
      current.reverse :: parseCSVLineFuel fuel [] [] false
    else parseCSVLineFuel fuel [] (c :: current) inQ
  | fuel + 1, c :: c2 :: rest2, current, inQ =>
    if c = '"' then
      if c2 = '"' then parseCSVLineFuel fuel rest2 ('"' :: current) inQ
      else parseCSVLineFuel fuel (c2 :: rest2) current (!inQ)
    else if c = ',' ∧ inQ = false then
      current.reverse :: parseCSVLineFuel fuel (c2 :: rest2) [] false
    else parseCSVLineFuel fuel (c2 :: rest2) (c :: current) inQ

def parseCSVLineAux (s current : Str) (inQ : Bool) : List Str :=
  parseCSVLineFuel (s.length + 1) s current inQ

def parseCSVLine (line : Str) : List Str := parseCSVLineAux line [] false

/-- value.slice(1, -1) with doubled quotes collapsed, for quote-wrapped fields. -/
def unescapeQuotes : Str → Str
  | [] => []
  | '"' :: '"' :: rest => '"' :: unescapeQuotes rest
  | c :: rest => c :: unescapeQuotes rest

/-- The reader's per-field conversion: the null/undefined literals, then the
    numeric coercion, then quote stripping, else the raw string. -/
def parseField (v : Str) : JsValue :=
  if v = "null".data ∨ v = "undefined".data then JsValue.null
  else if jsIsNumeric v ∧ v ≠ [] then JsValue.num (jsToNum v)
  else if v.head? = some '"' ∧ v.getLast? = some '"' then
    JsValue.str (unescapeQuotes ((v.drop 1).dropLast))
  else JsValue.str v

/-- The object rebuilt from one data row (headers paired with parsed values). -/
def buildObj (headers : List Str) (values : List Str) : Rec :=
  (headers.zip values).map (fun hv => (hv.1, parseField hv.2))

/-- The data-row loop of src/utils.ts readFromCSV: blank lines are skipped,
    rows whose field count mismatches the header are logged and skipped. -/
def readRowsAux (headers : List Str) : List Str → List Rec
  | [] => []
  | l :: rest =>
    if (jsTrim l).isEmpty then readRowsAux headers rest
    else
      if (parseCSVLine l).length ≠ headers.length then readRowsAux headers rest
      else buildObj headers (parseCSVLine l) :: readRowsAux headers rest

/-- src/utils.ts readFromCSV on file content (the fs lookup is outside the
    model; a nonexistent file reads as empty elsewhere). -/
def readFromCSV (content : Str) : List Rec :=
  let lines := splitOnChar '\n' content
  if lines.length < 2 then []
  else readRowsAux (splitOnChar ',' (lines.headD [])) (lines.drop 1)

/-- The numeric-string coercion the round trip is stated modulo. -/
def coerceValue : JsValue → JsValue
  | JsValue.num q => JsValue.num q
  | JsValue.null => JsValue.null
  | JsValue.str s =>
    if jsIsNumeric s ∧ s ≠ [] then JsValue.num (jsToNum s) else JsValue.str s

/-- The parsed-back raw field text of a written value. -/
def plainValue : JsValue → Str
  | JsValue.str s => s
  | JsValue.num q => jsNumToStr q
  | JsValue.null => []

/-- The conditions under which one field value survives the round trip:
    integral numbers; strings without newlines that are not the null or
    undefined literals and are not both quote-led and quote-ended (the
    reader's quote-stripping branch); null never survives (the join writes
    it as an empty string). -/
def valOk : JsValue → Prop
  | JsValue.num q => q.den = 1
  | JsValue.null => False
  | JsValue.str s => '\n' ∉ s ∧ s ≠ "null".data ∧ s ≠ "undefined".data ∧
      ¬(s.head? = some '"' ∧ s.getLast? = some '"')

instance valOk_dec : (v : JsValue) → Decidable (valOk v)
  | JsValue.num q => inferInstanceAs (Decidable (q.den = 1))
  | JsValue.null => inferInstanceAs (Decidable False)
  | JsValue.str s => inferInstanceAs (Decidable ('\n' ∉ s ∧ s ≠ "null".data
      ∧ s ≠ "undefined".data ∧ ¬(s.head? = some '"' ∧ s.getLast? = some '"')))

/-- Fixture: a record whose second field contains a newline. -/
def c7Recs : List Rec :=
  [[("h1".data, JsValue.str "ok".data), ("h2".data, JsValue.str "x\ny".data)]]

/-- Fixture: one quote-wrapped string field and one all-empty single-column
    record. -/
def c7Recs2 : List Rec :=
  [[("h".data, JsValue.str "\"hi\"".data)], [("h".data, JsValue.str "".data)]]

/-- Fixture: a two-column table exercising delimiter and quote escaping. -/
def c7wRecs : List Rec :=
  [[("name".data, JsValue.str "a,b \"q\"".data), ("n".data, JsValue.num 42)],
   [("name".data, JsValue.str "plain".data), ("n".data, JsValue.num (-7))]]

/- ===== Entity collector (src/places.ts collectRestaurantsInMadrid) ===== -/

/-- The slice of a stored restaurant the collector's control flow reads: only
    restaurant_id participates (seeding the seen set from the store); the
    remaining columns are payload carried through untouched. -/
structure Restaurant where
  restaurant_id : Str
  deriving DecidableEq, Repr

/-- A search result entry as the collector consumes it: the optional id field
    and the optional resource name (places/PLACE_ID). -/
structure SearchPlace where
  id : Option Str
  name : Option Str
  deriving DecidableEq, Repr

/-- The JS expression place.id || place.name?.split("/").pop(): an empty or
    absent id falls back to the last segment of the resource name. -/
def placeIdOf (p : SearchPlace) : Option Str :=
  let fallback := p.name.bind (fun n => (splitOnChar '/' n).getLast?)
  match p.id with
  | none => fallback
  | some s => if s = [] then fallback else some s

/-- The collector's mutable loop state: the seen-id set (insertion order kept;
    only membership is consulted), the new restaurants and the new reviews. -/
structure CollectState where
  seen : List Str
  newRestaurants : List Restaurant
  newReviews : List Rating
  deriving DecidableEq, Repr

/-- The collector's return value. -/
structure CollectResult where
  restaurants : List Restaurant
  reviews : List Rating
  newRestaurantCount : Nat
  newReviewCount : Nat
  deriving DecidableEq, Repr

/-- The inner place loop body: break-on-count is modelled as the count test
    at every step (the count never decreases, so once reached every later
    step is a no-op); an absent or empty id and an already-seen id are
    skipped; a failed detail fetch (none) is caught and skipped without
    touching the seen set; otherwise the restaurant, its reviews and its id
    are appended. -/
def processPlace (detail : Str → Option (Restaurant × List Rating)) (rem : Nat)
    (st : CollectState) (place : SearchPlace) : CollectState :=
  if rem ≤ st.newRestaurants.length then st
  else
    match placeIdOf place with
    | none => st
    | some pid =>
      if pid = [] ∨ pid ∈ st.seen then st
      else
        match detail pid with
        | none => st
        | some (r, revs) =>
          { seen := st.seen ++ [pid],
            newRestaurants := st.newRestaurants ++ [r],
            newReviews := st.newReviews ++ revs }

/-- The outer query loop body: break-on-count as above; a failed search
    (none, the catch branch) skips the query; otherwise every returned place
    is processed in order. -/
def processQuery (search : Str → Option (List SearchPlace))
    (detail : Str → Option (Restaurant × List Rating)) (rem : Nat)
    (st : CollectState) (query : Str) : CollectState :=
  if rem ≤ st.newRestaurants.length then st
  else
    match search query with
    | none => st
    | some places => places.foldl (processPlace detail rem) st

/-- The twenty-five hard-coded search queries. -/
def queries25 : List Str :=
  ["best restaurants Madrid".data, "popular restaurants Madrid".data,
   "spanish restaurants Madrid".data, "tapas Madrid".data,
   "fine dining Madrid".data, "paella Madrid".data, "seafood Madrid".data,
   "steakhouse Madrid".data, "italian Madrid".data, "asian Madrid".data,
   "michelin star Madrid".data, "authentic Madrid".data,
   "cheap eats Madrid".data, "brunch Madrid".data, "vegetarian Madrid".data,
   "chinese Madrid".data, "japanese Madrid".data, "indian Madrid".data,
   "mexican Madrid".data, "mediterranean Madrid".data,
   "restaurants Salamanca Madrid".data, "restaurants Malasana Madrid".data,
   "restaurants Chueca Madrid".data, "restaurants La Latina Madrid".data,
   "restaurants Retiro Madrid".data]

/-- src/places.ts collectRestaurantsInMadrid with the impure boundary passed
    in: search and detail model the Places API (none models a thrown error),
    store and storeReviews model the restaurants.csv/ratings.csv files.  When
    existingIds is provided the store is NOT loaded (existingRestaurants
    stays empty and the seen set is seeded from the given ids); otherwise the
    store is loaded and the seen set is seeded from the stored restaurant
    ids.  remainingCount is Math.max(0, target - existing.length); reaching
    it returns the existing data with zero newly collected. -/
def collectRestaurantsInMadrid (search : Str → Option (List SearchPlace))
    (detail : Str → Option (Restaurant × List Rating))
    (store : List Restaurant) (storeReviews : List Rating)
    (target : Nat) (existingIds : Option (List Str)) : CollectResult :=
  let existingRestaurants := match existingIds with
    | none => store
    | some _ => []
  let existingReviews : List Rating := match existingIds with
    | none => storeReviews
    | some _ => []
  let ids := match existingIds with
    | none => store.map (fun r => r.restaurant_id)
    | some given => given
  let remainingCount := target - existingRestaurants.length
  if remainingCount = 0 then
    { restaurants := existingRestaurants, reviews := existingReviews,
      newRestaurantCount := 0, newReviewCount := 0 }
  else
    let final := queries25.foldl (processQuery search detail remainingCount)
      { seen := ids, newRestaurants := [], newReviews := [] }
    { restaurants := existingRestaurants ++ final.newRestaurants,
      reviews := existingReviews ++ final.newReviews,
      newRestaurantCount := final.newRestaurants.length,
      newReviewCount := final.newReviews.length }

/-- Fixture: a directory that returns one place for every query, whose detail
    fetch succeeds with a matching restaurant id. -/
def c8search : Str → Option (List SearchPlace) :=
  fun _ => some [⟨some "p1".data, none⟩]

def c8detail : Str → Option (Restaurant × List Rating) :=
  fun _ => some (⟨"p1".data⟩, [])

/- ===== Theorems ===== -/

/-- C10: cleanInvalidIds is idempotent for both kinds, and every row it keeps
    is unchanged and appears in its original relative order (the output is a
    sublist of the input). -/
theorem cleanInvalidIds_idempotent_sublist {T : Type}
    (userIdOf : T → Option Int) (reviewIdOf : T → Option Str)
    (data : List T) (kind : CleanKind) :
    cleanInvalidIds userIdOf reviewIdOf
        (cleanInvalidIds userIdOf reviewIdOf data kind) kind
      = cleanInvalidIds userIdOf reviewIdOf data kind ∧
    (cleanInvalidIds userIdOf reviewIdOf data kind).Sublist data := by
  cases kind <;>
    refine ⟨List.filter_eq_self.mpr ?_, List.filter_sublist _⟩ <;>
    intro a ha <;> exact (List.mem_filter.mp ha).2

theorem mem_iteSingleton {α : Type} (x a : α) (c : Prop) [Decidable c] (l : List α) :
    x ∈ (if c then [a] else []) ++ l ↔ (c ∧ x = a) ∨ x ∈ l := by
  split_ifs <;> simp_all

theorem nodup_of_length_le_one {α : Type} (l : List α) (h : l.length ≤ 1) : l.Nodup := by
  match l with
  | [] => exact List.nodup_nil
  | [a] => exact List.nodup_singleton a
  | a :: b :: t => simp at h

theorem mem_emotionsFor (score magnitude : Rat) (x : Str) :
    x ∈ emotionsFor score magnitude ↔
      ((score > 7/10 ∧ magnitude > 3/2) ∧ x = "joy".data) ∨
      ((score > 1/2 ∧ score ≤ 7/10) ∧ x = "satisfaction".data) ∨
      ((score > 0 ∧ score ≤ 1/2) ∧ x = "contentment".data) ∨
      ((score < 0 ∧ score ≥ -(1/2)) ∧ x = "disappointment".data) ∨
      ((score < -(1/2) ∧ score ≥ -(7/10)) ∧ x = "frustration".data) ∨
      ((score < -(7/10)) ∧ x = "anger".data) := by
  unfold emotionsFor
  rw [mem_iteSingleton, mem_iteSingleton, mem_iteSingleton, mem_iteSingleton,
    mem_iteSingleton]
  have hlast : x ∈ (if score < -(7/10) then ["anger".data] else []) ↔
      (score < -(7/10)) ∧ x = "anger".data := by
    split_ifs <;> simp_all
  rw [hlast]

/-- C5: the emotions list is exactly the labels whose band condition holds,
    with the six bands as in the claim; the bands are pairwise disjoint, so
    the list has at most one label and never a duplicate.  The claim's two
    worked examples are included. -/
theorem emotion_bands_exact (score magnitude : Rat) :
    ("joy".data ∈ emotionsFor score magnitude ↔ (score > 7/10 ∧ magnitude > 3/2)) ∧
    ("satisfaction".data ∈ emotionsFor score magnitude ↔ (1/2 < score ∧ score ≤ 7/10)) ∧
    ("contentment".data ∈ emotionsFor score magnitude ↔ (0 < score ∧ score ≤ 1/2)) ∧
    ("disappointment".data ∈ emotionsFor score magnitude ↔ (-(1/2) ≤ score ∧ score < 0)) ∧
    ("frustration".data ∈ emotionsFor score magnitude ↔ (-(7/10) ≤ score ∧ score < -(1/2))) ∧
    ("anger".data ∈ emotionsFor score magnitude ↔ score < -(7/10)) ∧
    (emotionsFor score magnitude).length ≤ 1 ∧
    (emotionsFor score magnitude).Nodup ∧
    "joy".data ∈ emotionsFor (4/5) 2 ∧
    "frustration".data ∈ emotionsFor (-(3/5)) magnitude ∧
    "anger".data ∉ emotionsFor (-(3/5)) magnitude ∧
    "disappointment".data ∉ emotionsFor (-(3/5)) magnitude := by
  have hlen : ∀ s m : Rat, (emotionsFor s m).length ≤ 1 := by
    intro s m
    unfold emotionsFor
    split_ifs <;> simp_all <;> linarith
  refine ⟨?_, ?_, ?_, ?_, ?_, ?_, hlen score magnitude,
    nodup_of_length_le_one _ (hlen score magnitude), ?_, ?_, ?_, ?_⟩
  · rw [mem_emotionsFor]
    constructor
    · rintro (⟨h, e⟩ | ⟨h, e⟩ | ⟨h, e⟩ | ⟨h, e⟩ | ⟨h, e⟩ | ⟨h, e⟩) <;>
        first | exact h | exact absurd e (by decide)
    · intro h; exact Or.inl ⟨h, rfl⟩
  · rw [mem_emotionsFor]
    constructor
    · rintro (⟨h, e⟩ | ⟨h, e⟩ | ⟨h, e⟩ | ⟨h, e⟩ | ⟨h, e⟩ | ⟨h, e⟩) <;>
        first | exact h | exact absurd e (by decide)
    · intro h; exact Or.inr (Or.inl ⟨h, rfl⟩)
  · rw [mem_emotionsFor]
    constructor
    · rintro (⟨h, e⟩ | ⟨h, e⟩ | ⟨h, e⟩ | ⟨h, e⟩ | ⟨h, e⟩ | ⟨h, e⟩) <;>
        first | exact h | exact absurd e (by decide)
    · intro h; exact Or.inr (Or.inr (Or.inl ⟨h, rfl⟩))
  · rw [mem_emotionsFor]
    constructor
    · rintro (⟨h, e⟩ | ⟨h, e⟩ | ⟨h, e⟩ | ⟨h, e⟩ | ⟨h, e⟩ | ⟨h, e⟩) <;>
        first | exact ⟨h.2, h.1⟩ | exact absurd e (by decide)
    · intro h; exact Or.inr (Or.inr (Or.inr (Or.inl ⟨⟨h.2, h.1⟩, rfl⟩)))
  · rw [mem_emotionsFor]
    constructor
    · rintro (⟨h, e⟩ | ⟨h, e⟩ | ⟨h, e⟩ | ⟨h, e⟩ | ⟨h, e⟩ | ⟨h, e⟩) <;>
        first | exact ⟨h.2, h.1⟩ | exact absurd e (by decide)
    · intro h; exact Or.inr (Or.inr (Or.inr (Or.inr (Or.inl ⟨⟨h.2, h.1⟩, rfl⟩))))
  · rw [mem_emotionsFor]
    constructor
    · rintro (⟨h, e⟩ | ⟨h, e⟩ | ⟨h, e⟩ | ⟨h, e⟩ | ⟨h, e⟩ | ⟨h, e⟩) <;>
        first | exact h | exact absurd e (by decide)
    · intro h; exact Or.inr (Or.inr (Or.inr (Or.inr (Or.inr ⟨h, rfl⟩))))
  · rw [mem_emotionsFor]
    exact Or.inl ⟨⟨by norm_num, by norm_num⟩, rfl⟩
  · rw [mem_emotionsFor]
    exact Or.inr (Or.inr (Or.inr (Or.inr (Or.inl ⟨⟨by norm_num, by norm_num⟩, rfl⟩))))
  · rw [mem_emotionsFor]
    rintro (⟨h, e⟩ | ⟨h, e⟩ | ⟨h, e⟩ | ⟨h, e⟩ | ⟨h, e⟩ | ⟨h, e⟩) <;>
      first | exact absurd e (by decide) | norm_num at h
  · rw [mem_emotionsFor]
    rintro (⟨h, e⟩ | ⟨h, e⟩ | ⟨h, e⟩ | ⟨h, e⟩ | ⟨h, e⟩ | ⟨h, e⟩) <;>
      first | exact absurd e (by decide) | norm_num at h

theorem aspect_fold_ambiance_none :
    ∀ (sentences : List ApiSentence) (acc : AspectScores),
    (∀ sen ∈ sentences, ∀ term ∈ ambianceTerms,
        jsIncludes (lowerStr (sen.text.getD [])) term = false) →
    (sentences.foldl aspectStep acc).ambiance = acc.ambiance := by
  intro sentences
  induction sentences with
  | nil => intro acc _; rfl
  | cons sen rest ih =>
    intro acc h
    have hno : ∀ t ∈ ambianceTerms, jsIncludes (lowerStr (sen.text.getD [])) t = false :=
      fun t ht => h sen (List.mem_cons_self _ _) t ht
    have hany : ambianceTerms.any
        (fun term => jsIncludes (lowerStr (sen.text.getD [])) term) = false := by
      rw [List.any_eq_false]
      intro t ht
      simp [hno t ht]
    have hstep : (aspectStep acc sen).ambiance = acc.ambiance := by
      simp [aspectStep, aspectUpdate, hany]
    rw [List.foldl_cons,
      ih _ (fun s hs t ht => h s (List.mem_cons_of_mem _ hs) t ht), hstep]

/-- C4 (amended): an aspect whose keywords match no sentence stays null in the
    record built by the src/index.ts enricher draft, but the src/sentiment.ts
    enricher coalesces the absent aspect to 0 in its record. -/
theorem ambiance_null_when_absent (review : Rating) (res : ApiResult) (rid : Str)
    (h : ∀ sen ∈ res.sentences, ∀ term ∈ ambianceTerms,
        jsIncludes (lowerStr (sen.text.getD [])) term = false) :
    (processReviewIdx review res).ambiance_score = none ∧
    (processReviewTs review res rid).ambiance_score = some 0 := by
  have hamb : (aspectScores res.sentences).ambiance = none := by
    simpa [aspectScores] using
      aspect_fold_ambiance_none res.sentences ⟨none, none, none, none⟩ h
  exact ⟨by simp [processReviewIdx, hamb], by simp [processReviewTs, hamb]⟩

/-- C4 (counterexample): a concrete review whose response mentions no ambiance
    keyword in any sentence, yet the sentiment record produced by the current
    enricher (src/sentiment.ts) carries ambiance_score 0, not null/absent. -/
theorem ambiance_absent_zero_counterexample :
    (∀ sen ∈ c4Res.sentences, ∀ term ∈ ambianceTerms,
        jsIncludes (lowerStr (sen.text.getD [])) term = false) ∧
    (processReviewTs c4Review c4Res ['1']).ambiance_score = some 0 ∧
    (processReviewTs c4Review c4Res ['1']).ambiance_score ≠ none := by
  refine ⟨by decide, by decide, by decide⟩

/-- Witness for the amended C4 theorem at a concrete input. -/
theorem ambiance_null_when_absent_witness :
    (processReviewIdx c4Review c4Res).ambiance_score = none ∧
    (processReviewTs c4Review c4Res ['2']).ambiance_score = some 0 :=
  ambiance_null_when_absent c4Review c4Res ['2'] (by decide)

theorem analyzeTs_foldl_filter (analyze : Str → Option ApiResult) :
    ∀ (reviews : List Rating) (acc : List ReviewSentiment × List (Str × Str) × Nat),
    reviews.foldl (analyzeTsStep analyze) acc
      = (reviews.filter (fun r => !(isBlankStr r.review_text))).foldl
          (analyzeTsStep analyze) acc := by
  intro reviews
  induction reviews with
  | nil => intro acc; rfl
  | cons r rs ih =>
    intro acc
    by_cases hb : isBlankStr r.review_text
    · have hstep : analyzeTsStep analyze acc r = acc := by
        simp [analyzeTsStep, hb]
      simp [List.filter_cons, hb, hstep, ih]
    · simp [List.filter_cons, hb, ih]

theorem analyzeTs_foldl_length (analyze : Str → Option ApiResult) :
    ∀ (reviews : List Rating) (acc : List ReviewSentiment × List (Str × Str) × Nat),
    ((reviews.foldl (analyzeTsStep analyze) acc).1).length
      ≤ acc.1.length + (reviews.filter (fun r => !(isBlankStr r.review_text))).length := by
  intro reviews
  induction reviews with
  | nil => intro acc; simp
  | cons r rs ih =>
    intro acc
    by_cases hb : isBlankStr r.review_text
    · have hstep : analyzeTsStep analyze acc r = acc := by
        simp [analyzeTsStep, hb]
      simpa [List.filter_cons, hb, hstep] using ih acc
    · have hstep : ((analyzeTsStep analyze acc r).1).length ≤ acc.1.length + 1 := by
        unfold analyzeTsStep
        simp only [hb, Bool.false_eq_true, if_false]
        cases analyze r.review_text <;> simp
      have := ih (analyzeTsStep analyze acc r)
      simp only [List.foldl_cons, List.filter_cons, hb]
      calc ((rs.foldl (analyzeTsStep analyze) (analyzeTsStep analyze acc r)).1).length
          ≤ ((analyzeTsStep analyze acc r).1).length
            + (rs.filter (fun r => !(isBlankStr r.review_text))).length := this
        _ ≤ acc.1.length + 1
            + (rs.filter (fun r => !(isBlankStr r.review_text))).length := by omega
        _ = acc.1.length
            + ((r :: rs.filter (fun r => !(isBlankStr r.review_text))).length) := by
              simp; omega

theorem length_filter_split {α : Type} (p : α → Bool) (l : List α) :
    (l.filter p).length + (l.filter (fun a => !(p a))).length = l.length := by
  induction l with
  | nil => rfl
  | cons a t ih => by_cases h : p a <;> simp [List.filter_cons, h] <;> omega

/-- C6: a rating with empty or whitespace-only review text never yields a
    sentiment row (the run equals the run on the non-blank ratings only), the
    output has at most one row per non-blank rating, and a batch of 10 reviews
    of which 3 are blank contributes at most 7 rows. -/
theorem empty_reviews_skip (reviews : List Rating) (analyze : Str → Option ApiResult) :
    analyzeReviewSentimentTs reviews analyze
      = analyzeReviewSentimentTs
          (reviews.filter (fun r => !(isBlankStr r.review_text))) analyze ∧
    (analyzeReviewSentimentTs reviews analyze).length
      ≤ (reviews.filter (fun r => !(isBlankStr r.review_text))).length ∧
    (reviews.length = 10 →
      (reviews.filter (fun r => isBlankStr r.review_text)).length = 3 →
      (analyzeReviewSentimentTs reviews analyze).length ≤ 7) := by
  refine ⟨?_, ?_, ?_⟩
  · unfold analyzeReviewSentimentTs
    rw [analyzeTs_foldl_filter]
  · unfold analyzeReviewSentimentTs
    simpa using analyzeTs_foldl_length analyze reviews ([], [], 1)
  · intro hlen hblank
    have hsplit := length_filter_split (fun r => isBlankStr r.review_text) reviews
    have hbound : (analyzeReviewSentimentTs reviews analyze).length
        ≤ (reviews.filter (fun r => !(isBlankStr r.review_text))).length := by
      unfold analyzeReviewSentimentTs
      simpa using analyzeTs_foldl_length analyze reviews ([], [], 1)
    omega

/-- Witness for C6 at a concrete batch of 10 reviews with 3 blank ones. -/
theorem empty_reviews_skip_witness :
    (analyzeReviewSentimentTs c6Reviews (fun _ => none)).length ≤ 7 :=
  (empty_reviews_skip c6Reviews (fun _ => none)).2.2 (by decide) (by decide)

theorem mapGet_nil {β : Type} (k : Str) : mapGet ([] : List (Str × β)) k = none := rfl

theorem mapGet_cons {β : Type} (k1 : Str) (v1 : β) (m : List (Str × β)) (k : Str) :
    mapGet ((k1, v1) :: m) k = if k1 = k then some v1 else mapGet m k := by
  by_cases h : k1 = k
  · subst h
    simp [mapGet, List.find?_cons_of_pos]
  · rw [if_neg h]
    unfold mapGet
    rw [List.find?_cons_of_neg]
    simp [h]

theorem mapGet_append {β : Type} (m1 m2 : List (Str × β)) (k : Str) :
    mapGet (m1 ++ m2) k = (mapGet m1 k).or (mapGet m2 k) := by
  unfold mapGet
  rw [List.find?_append]
  cases List.find? (fun e => e.1 == k) m1 <;> simp

theorem mapGet_replace {β : Type} (k : Str) (v : β) (m : List (Str × β)) :
    mapGet (m.map (fun e => if e.1 == k then (k, v) else e)) k
      = (mapGet m k).map (fun _ => v) := by
  induction m with
  | nil => rfl
  | cons a t ih =>
    by_cases hk : a.1 = k
    · have hbeq : (a.1 == k) = true := by simp [hk]
      have ha : a = (a.1, a.2) := rfl
      rw [List.map_cons, hbeq, if_pos rfl]
      rw [ha, mapGet_cons, mapGet_cons, if_pos hk, if_pos rfl]
      rfl
    · have hbeq : (a.1 == k) = false := by simp [hk]
      have ha : a = (a.1, a.2) := rfl
      rw [List.map_cons, hbeq]
      simp only [Bool.false_eq_true, if_false]
      rw [ha, mapGet_cons, mapGet_cons, if_neg hk, if_neg hk, ih]

theorem mapGet_replace_ne {β : Type} (k k' : Str) (v : β) (hk : k ≠ k')
    (m : List (Str × β)) :
    mapGet (m.map (fun e => if e.1 == k then (k, v) else e)) k' = mapGet m k' := by
  induction m with
  | nil => rfl
  | cons a t ih =>
    by_cases hak : a.1 = k
    · have hbeq : (a.1 == k) = true := by simp [hak]
      have ha : a = (a.1, a.2) := rfl
      rw [List.map_cons, hbeq, if_pos rfl, mapGet_cons, ha, mapGet_cons,
        if_neg hk, if_neg (hak ▸ hk), ih]
    · have hbeq : (a.1 == k) = false := by simp [hak]
      have ha : a = (a.1, a.2) := rfl
      rw [List.map_cons, hbeq]
      simp only [Bool.false_eq_true, if_false]
      rw [ha, mapGet_cons, mapGet_cons, ih]

theorem mapGet_of_mapHas_false {β : Type} (m : List (Str × β)) (k : Str)
    (h : mapHas m k = false) : mapGet m k = none := by
  unfold mapHas at h
  exact Option.not_isSome_iff_eq_none.mp (by simp [h])

theorem mapGet_mapSet_self {β : Type} (m : List (Str × β)) (k : Str) (v : β) :
    mapGet (mapSet m k v) k = some v := by
  unfold mapSet
  by_cases h : mapHas m k = true
  · rw [if_pos h, mapGet_replace]
    unfold mapHas at h
    obtain ⟨w, hw⟩ := Option.isSome_iff_exists.mp h
    rw [hw]
    rfl
  · rw [if_neg h]
    rw [mapGet_append, mapGet_of_mapHas_false m k (Bool.eq_false_iff.mpr h)]
    simp [mapGet_cons]

theorem mapGet_mapSet_ne {β : Type} (m : List (Str × β)) (k k' : Str) (v : β)
    (hk : k ≠ k') : mapGet (mapSet m k v) k' = mapGet m k' := by
  unfold mapSet
  by_cases h : mapHas m k = true
  · rw [if_pos h, mapGet_replace_ne _ _ _ hk]
  · rw [if_neg h]
    rw [mapGet_append, mapGet_cons, if_neg hk, mapGet_nil]
    cases mapGet m k' <;> simp

theorem mapGet_mapSet_isSome {β : Type} (m : List (Str × β)) (k k' : Str) (v : β)
    (h : (mapGet m k').isSome) : (mapGet (mapSet m k v) k').isSome := by
  by_cases hk : k = k'
  · subst hk
    rw [mapGet_mapSet_self]
    rfl
  · rw [mapGet_mapSet_ne _ _ _ _ hk]
    exact h

theorem mapSet_values {β : Type} (m : List (Str × β)) (k : Str) (v : β)
    (kv : Str × β) (h : kv ∈ mapSet m k v) : kv.2 = v ∨ kv ∈ m := by
  unfold mapSet at h
  by_cases hhas : mapHas m k = true
  · rw [if_pos hhas] at h
    obtain ⟨e, he, heq⟩ := List.mem_map.mp h
    by_cases hek : (e.1 == k) = true
    · rw [if_pos hek] at heq
      left
      rw [← heq]
    · rw [if_neg hek] at heq
      right
      rw [← heq]
      exact he
  · rw [if_neg hhas] at h
    rcases List.mem_append.mp h with hm | hm
    · right; exact hm
    · left
      rw [List.mem_singleton.mp hm]

theorem mapGet_mem_values {β : Type} (m : List (Str × β)) (k : Str) (v : β)
    (h : mapGet m k = some v) : ∃ kv ∈ m, kv.2 = v := by
  unfold mapGet at h
  cases hf : List.find? (fun e => e.1 == k) m with
  | none => rw [hf] at h; simp at h
  | some e =>
    rw [hf] at h
    refine ⟨e, List.mem_of_find?_eq_some hf, ?_⟩
    have h2 : some e.2 = some v := h
    injection h2

theorem idxOfK_lt_length (k : Str) : ∀ K : List Str, k ∈ K → idxOfK k K < K.length := by
  intro K
  induction K with
  | nil => intro h; simp at h
  | cons a as ih =>
    intro h
    by_cases hk : a = k
    · simp [idxOfK, hk]
    · have : k ∈ as := by
        rcases List.mem_cons.mp h with h1 | h1
        · exact absurd h1.symm hk
        · exact h1
      simp only [idxOfK, if_neg hk, List.length_cons]
      exact Nat.succ_lt_succ (ih this)

theorem idxOfK_append_of_mem (k : Str) : ∀ (A B : List Str), k ∈ A →
    idxOfK k (A ++ B) = idxOfK k A := by
  intro A
  induction A with
  | nil => intro B h; simp at h
  | cons a as ih =>
    intro B h
    by_cases hk : a = k
    · simp [idxOfK, hk]
    · have : k ∈ as := by
        rcases List.mem_cons.mp h with h1 | h1
        · exact absurd h1.symm hk
        · exact h1
      simp only [List.cons_append, idxOfK, if_neg hk, List.append_eq]
      rw [ih B this]

theorem idxOfK_append_self (k : Str) : ∀ A : List Str, k ∉ A →
    idxOfK k (A ++ [k]) = A.length := by
  intro A
  induction A with
  | nil => intro _; simp [idxOfK]
  | cons a as ih =>
    intro h
    have hk : a ≠ k := fun he => h (he ▸ List.mem_cons_self a as)
    have has : k ∉ as := fun hm => h (List.mem_cons_of_mem a hm)
    simp only [List.cons_append, idxOfK, if_neg hk, List.length_cons, List.append_eq]
    rw [ih has]

theorem get_idxOfK (k : Str) : ∀ K : List Str, (h : k ∈ K) →
    K.get ⟨idxOfK k K, idxOfK_lt_length k K h⟩ = k := by
  intro K
  induction K with
  | nil => intro h; simp at h
  | cons a as ih =>
    intro h
    by_cases hk : a = k
    · simp [idxOfK, hk]
    · have hmem : k ∈ as := by
        rcases List.mem_cons.mp h with h1 | h1
        · exact absurd h1.symm hk
        · exact h1
      simp only [idxOfK, if_neg hk]
      exact ih hmem

theorem idxOfK_get : ∀ (K : List Str), K.Nodup → ∀ (j : Nat) (hj : j < K.length),
    idxOfK (K.get ⟨j, hj⟩) K = j := by
  intro K
  induction K with
  | nil => intro _ j hj; simp at hj
  | cons a as ih =>
    intro hn j hj
    cases j with
    | zero => simp [idxOfK]
    | succ i =>
      have hi : i < as.length := Nat.lt_of_succ_lt_succ hj
      have hget : (a :: as).get ⟨i + 1, hj⟩ = as.get ⟨i, hi⟩ := rfl
      rw [hget]
      have hne : a ≠ as.get ⟨i, hi⟩ := by
        intro he
        exact (List.nodup_cons.mp hn).1 (he ▸ List.get_mem as i hi)
      simp only [idxOfK, if_neg hne]
      rw [ih (List.nodup_cons.mp hn).2 i hi]

theorem firstSeenAcc_nil (acc : List Str) : firstSeenAcc acc [] = acc := rfl

theorem firstSeenAcc_cons (acc : List Str) (k : Str) (l : List Str) :
    firstSeenAcc acc (k :: l) = firstSeenAcc (if k ∈ acc then acc else acc ++ [k]) l := rfl

theorem firstSeenAcc_suffix : ∀ (l acc : List Str), ∃ ext, firstSeenAcc acc l = acc ++ ext := by
  intro l
  induction l with
  | nil => intro acc; exact ⟨[], by simp [firstSeenAcc_nil]⟩
  | cons k rest ih =>
    intro acc
    rw [firstSeenAcc_cons]
    by_cases hk : k ∈ acc
    · rw [if_pos hk]
      exact ih acc
    · rw [if_neg hk]
      obtain ⟨ext, he⟩ := ih (acc ++ [k])
      exact ⟨k :: ext, by rw [he]; simp⟩

theorem mem_firstSeenAcc_of_mem_acc (k : Str) (acc l : List Str) (h : k ∈ acc) :
    k ∈ firstSeenAcc acc l := by
  obtain ⟨ext, he⟩ := firstSeenAcc_suffix l acc
  rw [he]
  exact List.mem_append_left _ h

theorem mem_firstSeenAcc_of_mem (k : Str) : ∀ (l acc : List Str), k ∈ l →
    k ∈ firstSeenAcc acc l := by
  intro l
  induction l with
  | nil => intro acc h; simp at h
  | cons k0 rest ih =>
    intro acc h
    rw [firstSeenAcc_cons]
    rcases List.mem_cons.mp h with h1 | h1
    · subst h1
      apply mem_firstSeenAcc_of_mem_acc
      by_cases hk : k ∈ acc
      · rw [if_pos hk]; exact hk
      · rw [if_neg hk]; simp
    · exact ih _ h1

theorem mem_firstSeenAcc_src (k : Str) : ∀ (l acc : List Str),
    k ∈ firstSeenAcc acc l → k ∈ acc ∨ k ∈ l := by
  intro l
  induction l with
  | nil => intro acc h; rw [firstSeenAcc_nil] at h; exact Or.inl h
  | cons k0 rest ih =>
    intro acc h
    rw [firstSeenAcc_cons] at h
    rcases ih _ h with h1 | h1
    · by_cases hk : k0 ∈ acc
      · rw [if_pos hk] at h1
        exact Or.inl h1
      · rw [if_neg hk] at h1
        rcases List.mem_append.mp h1 with h2 | h2
        · exact Or.inl h2
        · exact Or.inr (List.mem_cons.mpr (Or.inl (List.mem_singleton.mp h2)))
    · exact Or.inr (List.mem_cons_of_mem _ h1)

theorem idxOfK_firstSeenAcc_of_mem_acc (k : Str) (acc l : List Str) (h : k ∈ acc) :
    idxOfK k (firstSeenAcc acc l) = idxOfK k acc := by
  obtain ⟨ext, he⟩ := firstSeenAcc_suffix l acc
  rw [he, idxOfK_append_of_mem k acc ext h]

theorem firstSeenAcc_nodup : ∀ (l acc : List Str), acc.Nodup →
    (firstSeenAcc acc l).Nodup := by
  intro l
  induction l with
  | nil => intro acc h; exact h
  | cons k rest ih =>
    intro acc h
    rw [firstSeenAcc_cons]
    by_cases hk : k ∈ acc
    · rw [if_pos hk]; exact ih acc h
    · rw [if_neg hk]
      exact ih _ (by simp [List.nodup_append, h, hk])

theorem firstSeen_nodup (l : List Str) : (firstSeen l).Nodup :=
  firstSeenAcc_nodup l [] List.nodup_nil

theorem idxMapAux_append {β : Type} (f : Nat → β) : ∀ (A : List Str) (start : Nat) (B : List Str),
    idxMapAux f start (A ++ B) = idxMapAux f start A ++ idxMapAux f (start + A.length) B := by
  intro A
  induction A with
  | nil => intro start B; simp [idxMapAux]
  | cons a as ih =>
    intro start B
    simp only [List.cons_append, idxMapAux, List.length_cons, List.append_eq]
    rw [ih (start + 1) B]
    have h2 : start + 1 + as.length = start + (as.length + 1) := by omega
    rw [h2]

theorem mapGet_idxMapAux {β : Type} (f : Nat → β) : ∀ (K : List Str) (start : Nat) (k : Str),
    mapGet (idxMapAux f start K) k
      = if k ∈ K then some (f (start + idxOfK k K)) else none := by
  intro K
  induction K with
  | nil => intro start k; simp [idxMapAux, mapGet_nil]
  | cons a as ih =>
    intro start k
    rw [idxMapAux, mapGet_cons]
    by_cases hk : a = k
    · subst hk
      simp [idxOfK]
    · rw [if_neg hk, ih (start + 1) k]
      by_cases hmem : k ∈ as
      · rw [if_pos hmem, if_pos (List.mem_cons_of_mem a hmem)]
        simp only [idxOfK, if_neg hk]
        congr 2
        omega
      · rw [if_neg hmem, if_neg (by
          intro hc
          rcases List.mem_cons.mp hc with h1 | h1
          · exact hk h1.symm
          · exact hmem h1)]

theorem mapHas_idxMap {β : Type} (f : Nat → β) (K : List Str) (k : Str) :
    mapHas (idxMap f K) k = true ↔ k ∈ K := by
  unfold mapHas idxMap
  rw [mapGet_idxMapAux]
  by_cases h : k ∈ K <;> simp [h]

theorem mapGet_idxMap_of_mem {β : Type} (f : Nat → β) (K : List Str) (k : Str)
    (h : k ∈ K) : mapGet (idxMap f K) k = some (f (idxOfK k K + 1)) := by
  unfold idxMap
  rw [mapGet_idxMapAux, if_pos h]
  congr 2
  omega

theorem mapSet_idxMap_append {β : Type} (f : Nat → β) (K : List Str) (k : Str)
    (h : k ∉ K) : mapSet (idxMap f K) k (f (K.length + 1)) = idxMap f (K ++ [k]) := by
  have hhas : ¬ mapHas (idxMap f K) k = true := fun hc => h ((mapHas_idxMap f K k).mp hc)
  unfold mapSet
  rw [if_neg hhas]
  unfold idxMap
  rw [idxMapAux_append]
  simp only [idxMapAux]
  rw [Nat.add_comm 1 K.length]

theorem reassignUserIds_foldl_spec :
    ∀ (ratings : List Rating) (res0 : List Rating) (K : List Str),
    ratings.foldl reassignUserIdsStep
        (res0, idxMap (fun n => (n : Int)) K, (K.length : Int) + 1)
      = (res0 ++ assignedRatings K ratings,
         idxMap (fun n => (n : Int)) (firstSeenAcc K (ratings.map (·.source_user_name))),
         ((firstSeenAcc K (ratings.map (·.source_user_name))).length : Int) + 1) := by
  intro ratings
  induction ratings with
  | nil =>
    intro res0 K
    simp [assignedRatings, firstSeenAcc_nil]
  | cons r rest ih =>
    intro res0 K
    rw [List.foldl_cons, List.map_cons, firstSeenAcc_cons]
    by_cases hk : r.source_user_name ∈ K
    · rw [if_pos hk]
      have hhas : mapHas (idxMap (fun n => (n : Int)) K) r.source_user_name = true :=
        (mapHas_idxMap _ _ _).mpr hk
      have hstep : reassignUserIdsStep
            (res0, idxMap (fun n => (n : Int)) K, (K.length : Int) + 1) r
          = (res0 ++ [withUserId r ((idxOfK r.source_user_name K + 1 : Nat) : Int)],
             idxMap (fun n => (n : Int)) K, (K.length : Int) + 1) := by
        unfold reassignUserIdsStep withUserId
        simp only [hhas, if_true, mapGet_idxMap_of_mem _ _ _ hk, Option.getD_some]
      rw [hstep, ih (res0 ++ [withUserId r ((idxOfK r.source_user_name K + 1 : Nat) : Int)]) K]
      simp only [assignedRatings, if_pos hk, List.append_assoc, List.cons_append,
        List.nil_append]
    · rw [if_neg hk]
      have hhas : ¬ mapHas (idxMap (fun n => (n : Int)) K) r.source_user_name = true :=
        fun hc => hk ((mapHas_idxMap _ _ _).mp hc)
      have hset : mapSet (idxMap (fun n => (n : Int)) K) r.source_user_name
            ((K.length : Int) + 1)
          = idxMap (fun n => (n : Int)) (K ++ [r.source_user_name]) := by
        have hv : ((K.length : Int) + 1) = ((K.length + 1 : Nat) : Int) := by push_cast; ring
        rw [hv]
        exact mapSet_idxMap_append (fun n => (n : Int)) K r.source_user_name hk
      have hmem1 : r.source_user_name ∈ K ++ [r.source_user_name] := by simp
      have hstep : reassignUserIdsStep
            (res0, idxMap (fun n => (n : Int)) K, (K.length : Int) + 1) r
          = (res0 ++ [withUserId r
                ((idxOfK r.source_user_name (K ++ [r.source_user_name]) + 1 : Nat) : Int)],
             idxMap (fun n => (n : Int)) (K ++ [r.source_user_name]),
             (((K ++ [r.source_user_name]).length : Nat) : Int) + 1) := by
        unfold reassignUserIdsStep withUserId
        simp only [hhas, Bool.false_eq_true, if_false, hset,
          mapGet_idxMap_of_mem _ _ _ hmem1, Option.getD_some]
        have hlen : ((K.length : Int) + 1) + 1
            = (((K ++ [r.source_user_name]).length : Nat) : Int) + 1 := by
          push_cast [List.length_append, List.length_singleton]
          ring
        rw [hlen]
      rw [hstep, ih _ (K ++ [r.source_user_name])]
      simp only [assignedRatings, if_neg hk, List.append_assoc, List.cons_append,
        List.nil_append]

theorem assignedRatings_length : ∀ (ratings : List Rating) (K : List Str),
    (assignedRatings K ratings).length = ratings.length := by
  intro ratings
  induction ratings with
  | nil => intro K; rfl
  | cons r rest ih =>
    intro K
    simp [assignedRatings, ih]

theorem memK1 (key : Str) (K : List Str) :
    key ∈ (if key ∈ K then K else K ++ [key]) := by
  by_cases hk : key ∈ K
  · rw [if_pos hk]; exact hk
  · rw [if_neg hk]; simp

theorem assignedRatings_get? : ∀ (ratings : List Rating) (K : List Str) (i : Nat) (r : Rating),
    ratings.get? i = some r →
    (assignedRatings K ratings).get? i
      = some (withUserId r ((idxOfK r.source_user_name
          (firstSeenAcc K (ratings.map (·.source_user_name))) + 1 : Nat) : Int)) := by
  intro ratings
  induction ratings with
  | nil => intro K i r h; simp at h
  | cons r0 rest ih =>
    intro K i r h
    cases i with
    | zero =>
      have hr : r0 = r := by simpa using h
      subst hr
      rw [List.map_cons, firstSeenAcc_cons]
      simp only [assignedRatings, List.get?_cons_zero]
      rw [idxOfK_firstSeenAcc_of_mem_acc _ _ _ (memK1 r0.source_user_name K)]
    | succ j =>
      have hj : rest.get? j = some r := by simpa using h
      rw [List.map_cons, firstSeenAcc_cons]
      simp only [assignedRatings, List.get?_cons_succ]
      exact ih _ j r hj

/-- C3: reassignUserIds keeps the length; every output row equals its input
    row with user_id rewritten to 1 + the first-encounter rank of its display
    name among the distinct names (so same-name rows share an id, distinct
    names never collide, no other field changes), and the assigned id set is
    exactly 1..k for k the number of distinct display names. -/
theorem reassignUserIds_spec (ratings : List Rating) :
    (reassignUserIds ratings).length = ratings.length ∧
    (∀ (i : Nat) (r : Rating), ratings.get? i = some r →
      (reassignUserIds ratings).get? i
        = some (withUserId r ((idxOfK r.source_user_name
            (firstSeen (ratings.map (·.source_user_name))) + 1 : Nat) : Int))) ∧
    (∀ v : Int, (∃ r2 ∈ reassignUserIds ratings, r2.user_id = v) ↔
      (1 ≤ v ∧ v ≤ ((firstSeen (ratings.map (·.source_user_name))).length : Int))) := by
  have hrun : reassignUserIds ratings = assignedRatings [] ratings := by
    unfold reassignUserIds
    have h0 : (([], [], 1) : List Rating × List (Str × Int) × Int)
        = ([], idxMap (fun n => (n : Int)) [],
           ((([] : List Str)).length : Int) + 1) := by
      simp [idxMap, idxMapAux]
    rw [h0, reassignUserIds_foldl_spec ratings [] []]
    rfl
  have hget : ∀ (i : Nat) (r : Rating), ratings.get? i = some r →
      (reassignUserIds ratings).get? i
        = some (withUserId r ((idxOfK r.source_user_name
            (firstSeen (ratings.map (·.source_user_name))) + 1 : Nat) : Int)) := by
    intro i r h
    rw [hrun]
    exact assignedRatings_get? ratings [] i r h
  refine ⟨by rw [hrun]; exact assignedRatings_length ratings [], hget, ?_⟩
  intro v
  constructor
  · rintro ⟨r2, hmem, hv⟩
    obtain ⟨i, hi⟩ := List.mem_iff_get?.mp hmem
    have hlen : i < ratings.length := by
      have h1 : i < (reassignUserIds ratings).length := (List.get?_eq_some.mp hi).1
      rw [hrun, assignedRatings_length] at h1
      exact h1
    obtain ⟨r, hr⟩ : ∃ r, ratings.get? i = some r := by
      rw [List.get?_eq_get hlen]
      exact ⟨_, rfl⟩
    have := hget i r hr
    rw [this] at hi
    have hr2 : r2 = withUserId r ((idxOfK r.source_user_name
        (firstSeen (ratings.map (·.source_user_name))) + 1 : Nat) : Int) := by
      injection hi.symm
    have hkey : r.source_user_name ∈ firstSeen (ratings.map (·.source_user_name)) := by
      apply mem_firstSeenAcc_of_mem
      exact List.mem_map.mpr ⟨r, List.get?_mem hr, rfl⟩
    have hidx := idxOfK_lt_length _ _ hkey
    rw [hr2] at hv
    simp only [withUserId] at hv
    constructor
    · omega
    · have : (idxOfK r.source_user_name (firstSeen (ratings.map (·.source_user_name))) + 1)
          ≤ (firstSeen (ratings.map (·.source_user_name))).length := hidx
      omega
  · rintro ⟨h1, h2⟩
    have hj : (v - 1).toNat < (firstSeen (ratings.map (·.source_user_name))).length := by
      omega
    set m := firstSeen (ratings.map (·.source_user_name)) with hm
    set key := m.get ⟨(v - 1).toNat, hj⟩ with hkeydef
    have hkeymem : key ∈ m := List.get_mem m _ _
    have hkeynames : key ∈ ratings.map (·.source_user_name) := by
      have hkeymem2 : key ∈ firstSeenAcc [] (ratings.map (·.source_user_name)) := by
        have he : m = firstSeenAcc [] (ratings.map (·.source_user_name)) := hm
        rw [← he]
        exact hkeymem
      rcases mem_firstSeenAcc_src key (ratings.map (·.source_user_name)) [] hkeymem2 with h | h
      · simp at h
      · exact h
    obtain ⟨i, hi⟩ := List.mem_iff_get?.mp hkeynames
    have hmap := List.get?_map (·.source_user_name) ratings i
    rw [hi] at hmap
    obtain ⟨r, hr, hrname⟩ : ∃ r, ratings.get? i = some r ∧ r.source_user_name = key := by
      cases hg : ratings.get? i with
      | none => rw [hg] at hmap; simp at hmap
      | some r =>
        rw [hg] at hmap
        have h2 : some key = some r.source_user_name := hmap
        refine ⟨r, rfl, ?_⟩
        injection h2 with h3
        exact h3.symm
    have hidx : idxOfK key m = (v - 1).toNat := by
      rw [hkeydef]
      exact idxOfK_get m (firstSeen_nodup _) _ hj
    have hrow := hget i r hr
    refine ⟨withUserId r ((idxOfK r.source_user_name m + 1 : Nat) : Int),
      List.get?_mem hrow, ?_⟩
    simp only [withUserId]
    rw [hrname, hidx]
    omega

theorem natStrFuel_congr : ∀ (f1 : Nat), ∀ (f2 n : Nat), n < f1 → n < f2 →
    natStrFuel f1 n = natStrFuel f2 n := by
  intro f1
  induction f1 with
  | zero => intro f2 n h1 _; omega
  | succ f ih =>
    intro f2 n h1 h2
    cases f2 with
    | zero => omega
    | succ g =>
      rw [natStrFuel, natStrFuel]
      by_cases h10 : n < 10
      · rw [if_pos h10, if_pos h10]
      · rw [if_neg h10, if_neg h10]
        have hdiv : n / 10 < n := Nat.div_lt_self (by omega) (by omega)
        rw [ih g (n / 10) (by omega) (by omega)]

theorem natStr_eq (n : Nat) :
    natStr n = if n < 10 then [digitChar n] else natStr (n / 10) ++ [digitChar (n % 10)] := by
  unfold natStr
  rw [natStrFuel]
  by_cases h10 : n < 10
  · rw [if_pos h10, if_pos h10]
  · rw [if_neg h10, if_neg h10]
    have hdiv : n / 10 < n := Nat.div_lt_self (by omega) (by omega)
    rw [natStrFuel_congr n (n / 10 + 1) (n / 10) (by omega) (by omega)]

theorem natStr_digit_range : ∀ (n : Nat), ∀ c ∈ natStr n, 48 ≤ c.toNat ∧ c.toNat ≤ 57 := by
  intro n
  induction n using Nat.strong_induction_on with
  | _ n ih =>
    intro c hc
    rw [natStr_eq] at hc
    by_cases h10 : n < 10
    · rw [if_pos h10] at hc
      have hcd : c = digitChar n := List.mem_singleton.mp hc
      subst hcd
      interval_cases n <;> decide
    · rw [if_neg h10] at hc
      rcases List.mem_append.mp hc with h | h
      · have hdiv : n / 10 < n := Nat.div_lt_self (by omega) (by omega)
        exact ih (n / 10) hdiv c h
      · have hcd : c = digitChar (n % 10) := List.mem_singleton.mp h
        subst hcd
        have hmod : n % 10 < 10 := Nat.mod_lt _ (by omega)
        set m := n % 10 with hm
        interval_cases m <;> decide

theorem natStr_ne_nil : ∀ n : Nat, natStr n ≠ [] := by
  intro n
  rw [natStr_eq]
  by_cases h10 : n < 10
  · rw [if_pos h10]; simp
  · rw [if_neg h10]; simp

theorem intStr_no_underscore (i : Int) : '_' ∉ intStr i := by
  have hns : ∀ n : Nat, '_' ∉ natStr n := by
    intro n hc
    have := natStr_digit_range n '_' hc
    have h95 : ('_' : Char).toNat = 95 := rfl
    omega
  unfold intStr
  split_ifs
  · intro hc
    rcases List.mem_cons.mp hc with h | h
    · exact absurd h (by decide)
    · exact hns _ h
  · exact hns _

theorem natStr_ne_zeroStr (n : Nat) (h : 1 ≤ n) : natStr n ≠ ['0'] := by
  rw [natStr_eq]
  by_cases h10 : n < 10
  · rw [if_pos h10]
    interval_cases n <;> decide
  · rw [if_neg h10]
    intro hc
    have hlen := congrArg List.length hc
    rw [List.length_append] at hlen
    have hne := natStr_ne_nil (n / 10)
    cases hq : natStr (n / 10) with
    | nil => exact hne hq
    | cons a t =>
      rw [hq] at hlen
      simp at hlen

theorem splitOnChar_not_mem (c : Char) : ∀ s : Str, c ∉ s → splitOnChar c s = [s] := by
  intro s
  induction s with
  | nil => intro _; rfl
  | cons ch rest ih =>
    intro h
    have hch : ch ≠ c := fun he => h (he ▸ List.mem_cons_self ch rest)
    have hrest : c ∉ rest := fun hm => h (List.mem_cons_of_mem ch hm)
    rw [splitOnChar, if_neg hch, ih hrest]

theorem splitOnChar_ne_nil (c : Char) : ∀ s : Str, splitOnChar c s ≠ [] := by
  intro s
  cases s with
  | nil => simp [splitOnChar]
  | cons ch rest =>
    rw [splitOnChar]
    by_cases hch : ch = c
    · rw [if_pos hch]; simp
    · rw [if_neg hch]
      cases splitOnChar c rest <;> simp

theorem splitOnChar_append (c : Char) : ∀ (a b : Str), c ∉ a →
    splitOnChar c (a ++ c :: b) = a :: splitOnChar c b := by
  intro a
  induction a with
  | nil => intro b _; rw [List.nil_append, splitOnChar, if_pos rfl]
  | cons ch t ih =>
    intro b h
    have hch : ch ≠ c := fun he => h (he ▸ List.mem_cons_self ch t)
    have ht : c ∉ t := fun hm => h (List.mem_cons_of_mem ch hm)
    rw [List.cons_append, splitOnChar, if_neg hch, ih b ht]

/-- Under the claim's shape assumptions the transient key rebuilt by the
    reconciler is the row's original review_id, and the stamped restaurant id
    is the old rating's restaurant id. -/
theorem transientKey_tkey (s : ReviewSentiment) (uid : Int) (rid : Str)
    (hrid : '_' ∉ rid) (hs : s.review_id = tkey uid rid) :
    transientKey s = s.review_id ∧ (splitOnChar '_' s.review_id).get? 1 = some rid := by
  have hsplit : splitOnChar '_' s.review_id = [intStr uid, rid] := by
    rw [hs]
    unfold tkey
    rw [splitOnChar_append '_' (intStr uid) rid (intStr_no_underscore uid),
      splitOnChar_not_mem '_' rid hrid]
  constructor
  · unfold transientKey
    rw [hsplit, hs]
    unfold tkey optStr
    rfl
  · rw [hsplit]
    rfl

theorem reassign_foldl_spec (numap : List (Str × Int)) :
    ∀ (sents : List ReviewSentiment) (res0 : List ReviewSentiment) (K : List Str),
    sents.foldl (reassignStep numap) (res0, idxMap natStr K, K.length + 1)
      = (res0 ++ assignedRows numap K sents,
         idxMap natStr (firstSeenAcc K (sents.map transientKey)),
         (firstSeenAcc K (sents.map transientKey)).length + 1) := by
  intro sents
  induction sents with
  | nil =>
    intro res0 K
    simp [assignedRows, firstSeenAcc_nil]
  | cons s rest ih =>
    intro res0 K
    rw [List.foldl_cons, List.map_cons, firstSeenAcc_cons]
    by_cases hk : transientKey s ∈ K
    · rw [if_pos hk]
      have hhas : mapHas (idxMap natStr K) (transientKey s) = true :=
        (mapHas_idxMap _ _ _).mpr hk
      have hstep : reassignStep numap (res0, idxMap natStr K, K.length + 1) s
          = (res0 ++ [outRow numap s (natStr (idxOfK (transientKey s) K + 1))],
             idxMap natStr K, K.length + 1) := by
        unfold reassignStep outRow
        simp only [hhas, if_true, mapGet_idxMap_of_mem _ _ _ hk, Option.getD_some]
      rw [hstep, ih (res0 ++ [outRow numap s (natStr (idxOfK (transientKey s) K + 1))]) K]
      simp only [assignedRows, if_pos hk, List.append_assoc, List.cons_append,
        List.nil_append]
    · rw [if_neg hk]
      have hhas : ¬ mapHas (idxMap natStr K) (transientKey s) = true :=
        fun hc => hk ((mapHas_idxMap _ _ _).mp hc)
      have hset : mapSet (idxMap natStr K) (transientKey s) (natStr (K.length + 1))
          = idxMap natStr (K ++ [transientKey s]) :=
        mapSet_idxMap_append natStr K (transientKey s) hk
      have hmem1 : transientKey s ∈ K ++ [transientKey s] := by simp
      have hstep : reassignStep numap (res0, idxMap natStr K, K.length + 1) s
          = (res0 ++ [outRow numap s
                (natStr (idxOfK (transientKey s) (K ++ [transientKey s]) + 1))],
             idxMap natStr (K ++ [transientKey s]),
             (K ++ [transientKey s]).length + 1) := by
        unfold reassignStep outRow
        simp only [hhas, Bool.false_eq_true, if_false, hset,
          mapGet_idxMap_of_mem _ _ _ hmem1, Option.getD_some]
        rw [List.length_append, List.length_singleton]
      rw [hstep, ih _ (K ++ [transientKey s])]
      simp only [assignedRows, if_neg hk, List.append_assoc, List.cons_append,
        List.nil_append]

theorem assignedRows_length (numap : List (Str × Int)) :
    ∀ (sents : List ReviewSentiment) (K : List Str),
    (assignedRows numap K sents).length = sents.length := by
  intro sents
  induction sents with
  | nil => intro K; rfl
  | cons s rest ih =>
    intro K
    simp [assignedRows, ih]

theorem assignedRows_get? (numap : List (Str × Int)) :
    ∀ (sents : List ReviewSentiment) (K : List Str) (i : Nat) (s : ReviewSentiment),
    sents.get? i = some s →
    (assignedRows numap K sents).get? i
      = some (outRow numap s (natStr (idxOfK (transientKey s)
          (firstSeenAcc K (sents.map transientKey)) + 1))) := by
  intro sents
  induction sents with
  | nil => intro K i s h; simp at h
  | cons s0 rest ih =>
    intro K i s h
    cases i with
    | zero =>
      have hs : s0 = s := by simpa using h
      subst hs
      rw [List.map_cons, firstSeenAcc_cons]
      simp only [assignedRows, List.get?_cons_zero]
      rw [idxOfK_firstSeenAcc_of_mem_acc _ _ _ (memK1 (transientKey s0) K)]
    | succ j =>
      have hj : rest.get? j = some s := by simpa using h
      rw [List.map_cons, firstSeenAcc_cons]
      simp only [assignedRows, List.get?_cons_succ]
      exact ih _ j s hj

theorem mem_assignedRows (numap : List (Str × Int)) :
    ∀ (sents : List ReviewSentiment) (K : List Str) (row : ReviewSentiment),
    row ∈ assignedRows numap K sents →
    ∃ s ∈ sents, ∃ m : Nat, row = outRow numap s (natStr (m + 1)) := by
  intro sents
  induction sents with
  | nil => intro K row h; simp [assignedRows] at h
  | cons s0 rest ih =>
    intro K row h
    simp only [assignedRows] at h
    rcases List.mem_cons.mp h with h1 | h1
    · exact ⟨s0, List.mem_cons_self _ _, _, h1⟩
    · obtain ⟨s, hs, m, hm⟩ := ih _ row h1
      exact ⟨s, List.mem_cons_of_mem _ hs, m, hm⟩

/-- The reconciler run equals the first-seen dense assignment description. -/
theorem reassign_eq_assignedRows (sents : List ReviewSentiment)
    (oldRatings newRatings : List Rating) :
    reassignReviewSentimentIds sents oldRatings newRatings
      = assignedRows (buildNewUserMapping oldRatings newRatings) [] sents := by
  unfold reassignReviewSentimentIds
  show (sents.foldl (reassignStep (buildNewUserMapping oldRatings newRatings))
      ([], [], 1)).1
    = assignedRows (buildNewUserMapping oldRatings newRatings) [] sents
  have h0 : (([], [], 1) : List ReviewSentiment × List (Str × Str) × Nat)
      = ([], idxMap natStr [], (([] : List Str)).length + 1) := by
    simp [idxMap, idxMapAux]
  rw [h0, reassign_foldl_spec (buildNewUserMapping oldRatings newRatings) sents [] []]
  rfl

/-- C2 (amended): after reconciliation the new review_id of row i is
    determined by the transient key parsed from its original review_id (not by
    the output (user_id, restaurant_id) pair): it is 1 plus the first-seen
    rank of that key, so the reassign output's review_id values are exactly
    the decimal strings 1..m for m the number of distinct transient keys, in
    first-seen order; the cleaning pass then yields a subsequence of those
    rows, so the final table's review_id values are a subset of 1..m, not
    necessarily the whole dense set. -/
theorem reassign_review_ids_characterization (sents : List ReviewSentiment)
    (oldRatings newRatings : List Rating) :
    (reassignReviewSentimentIds sents oldRatings newRatings).length = sents.length ∧
    (∀ (i : Nat) (s : ReviewSentiment), sents.get? i = some s →
      (reassignReviewSentimentIds sents oldRatings newRatings).get? i
        = some (outRow (buildNewUserMapping oldRatings newRatings) s
            (natStr (idxOfK (transientKey s) (firstSeen (sents.map transientKey)) + 1)))) ∧
    (∀ s ∈ sents, transientKey s ∈ firstSeen (sents.map transientKey) ∧
      idxOfK (transientKey s) (firstSeen (sents.map transientKey))
        < (firstSeen (sents.map transientKey)).length) ∧
    (∀ k ∈ firstSeen (sents.map transientKey), ∃ s ∈ sents, transientKey s = k) ∧
    (cleanInvalidIds sentimentUserId sentimentReviewId
        (reassignReviewSentimentIds sents oldRatings newRatings)
        CleanKind.sentiment).Sublist
      (reassignReviewSentimentIds sents oldRatings newRatings) := by
  have hrun := reassign_eq_assignedRows sents oldRatings newRatings
  refine ⟨?_, ?_, ?_, ?_, ?_⟩
  · rw [hrun]
    exact assignedRows_length _ sents []
  · intro i s h
    rw [hrun]
    exact assignedRows_get? _ sents [] i s h
  · intro s hs
    have hmem : transientKey s ∈ firstSeen (sents.map transientKey) := by
      apply mem_firstSeenAcc_of_mem
      exact List.mem_map.mpr ⟨s, hs, rfl⟩
    exact ⟨hmem, idxOfK_lt_length _ _ hmem⟩
  · intro k hk
    have : k ∈ sents.map transientKey := by
      rcases mem_firstSeenAcc_src k (sents.map transientKey) [] hk with h | h
      · simp at h
      · exact h
    obtain ⟨s, hs, hks⟩ := List.mem_map.mp this
    exact ⟨s, hs, hks⟩
  · unfold cleanInvalidIds
    exact List.filter_sublist _

/-- C2 (counterexample): a concrete input whose cleaned output contains two
    rows agreeing on (user_id, restaurant_id) but with different review_ids,
    and whose review_id values miss the string 1 although the table is
    nonempty, so they are not the dense set 1..m. -/
theorem reassign_review_ids_counterexample :
    (¬ (∀ r1 ∈ cleanInvalidIds sentimentUserId sentimentReviewId
          (reassignReviewSentimentIds c2Sents c2Old c2New) CleanKind.sentiment,
        ∀ r2 ∈ cleanInvalidIds sentimentUserId sentimentReviewId
          (reassignReviewSentimentIds c2Sents c2Old c2New) CleanKind.sentiment,
        r1.user_id = r2.user_id → r1.restaurant_id = r2.restaurant_id →
          r1.review_id = r2.review_id)) ∧
    cleanInvalidIds sentimentUserId sentimentReviewId
        (reassignReviewSentimentIds c2Sents c2Old c2New) CleanKind.sentiment ≠ [] ∧
    natStr 1 ∉ (cleanInvalidIds sentimentUserId sentimentReviewId
        (reassignReviewSentimentIds c2Sents c2Old c2New) CleanKind.sentiment).map
          (·.review_id) := by
  refine ⟨by decide, by decide, by decide⟩

/-- Witness for the amended C2 theorem at a concrete input: the first row of
    the reconciled c2Sents receives review_id 1 (decimal string). -/
theorem reassign_review_ids_characterization_witness :
    (reassignReviewSentimentIds c2Sents c2Old c2New).get? 0
      = some (outRow (buildNewUserMapping c2Old c2New) (mkSent "3_r".data)
          (natStr (idxOfK (transientKey (mkSent "3_r".data))
            (firstSeen (c2Sents.map transientKey)) + 1))) :=
  (reassign_review_ids_characterization c2Sents c2Old c2New).2.1 0
    (mkSent "3_r".data) (by decide)

/-- Witness for the C3 theorem at a concrete input: the third rating shares
    the display name of the first and receives its first-seen rank id. -/
theorem reassignUserIds_spec_witness :
    (reassignUserIds c3Ratings).get? 2
      = some (withUserId ⟨3, "r3".data, 3, "z".data, "d".data, "bob".data⟩
          ((idxOfK "bob".data (firstSeen (c3Ratings.map (·.source_user_name))) + 1 : Nat)
            : Int)) :=
  (reassignUserIds_spec c3Ratings).2.1 2
    ⟨3, "r3".data, 3, "z".data, "d".data, "bob".data⟩ (by decide)

theorem buildMapping_fold : ∀ (olds news : List Rating) (m0 : List (Str × Int)),
    (∀ kv ∈ m0, ∃ n ∈ news, kv.2 = n.user_id) →
    (∀ kv ∈ olds.foldl (buildMappingStep news) m0, ∃ n ∈ news, kv.2 = n.user_id) ∧
    (∀ k : Str, (mapGet m0 k).isSome →
      (mapGet (olds.foldl (buildMappingStep news) m0) k).isSome) ∧
    (∀ o ∈ olds, (∃ n ∈ news, matchesOld o n = true) →
      (mapGet (olds.foldl (buildMappingStep news) m0)
        (tkey o.user_id o.restaurant_id)).isSome) := by
  intro olds
  induction olds with
  | nil =>
    intro news m0 hv
    exact ⟨hv, fun k h => h, fun o ho => absurd ho (by simp)⟩
  | cons o os ih =>
    intro news m0 hv
    rw [List.foldl_cons]
    have hv1 : ∀ kv ∈ buildMappingStep news m0 o, ∃ n ∈ news, kv.2 = n.user_id := by
      intro kv hkv
      unfold buildMappingStep at hkv
      cases hf : news.find? (fun n => matchesOld o n) with
      | none => rw [hf] at hkv; exact hv kv hkv
      | some mn =>
        rw [hf] at hkv
        rcases mapSet_values _ _ _ _ hkv with h | h
        · exact ⟨mn, List.mem_of_find?_eq_some hf, h⟩
        · exact hv kv h
    have hmono1 : ∀ k : Str, (mapGet m0 k).isSome →
        (mapGet (buildMappingStep news m0 o) k).isSome := by
      intro k h
      unfold buildMappingStep
      cases hf : news.find? (fun n => matchesOld o n) with
      | none => exact h
      | some mn => exact mapGet_mapSet_isSome _ _ _ _ h
    obtain ⟨ih1, ih2, ih3⟩ := ih news (buildMappingStep news m0 o) hv1
    refine ⟨ih1, fun k h => ih2 k (hmono1 k h), ?_⟩
    intro o2 ho2 hex
    rcases List.mem_cons.mp ho2 with h | h
    · subst h
      apply ih2
      obtain ⟨n, hn, hmn⟩ := hex
      have hfs : (news.find? (fun n => matchesOld o2 n)).isSome :=
        List.find?_isSome.mpr ⟨n, hn, hmn⟩
      unfold buildMappingStep
      cases hf : news.find? (fun n => matchesOld o2 n) with
      | none => rw [hf] at hfs; simp at hfs
      | some mn =>
        rw [mapGet_mapSet_self]
        rfl
    · exact ih3 o2 h hex

/-- C1 (amended): when every old rating's (restaurant_id, review_text) pair
    matches exactly one new rating, every sentiment row's review_id is the
    transient key of some old rating, no restaurant_id of an old rating
    contains an underscore, and every new rating's user_id is non-zero, then
    every reconciled row has a non-zero user_id and the sentiment cleaning
    pass removes no rows. -/
theorem reconciliation_nonzero_and_clean_noop (sents : List ReviewSentiment)
    (oldRatings newRatings : List Rating)
    (h1 : ∀ o ∈ oldRatings, (newRatings.filter (fun n => matchesOld o n)).length = 1)
    (h2 : ∀ s ∈ sents, ∃ o ∈ oldRatings, s.review_id = tkey o.user_id o.restaurant_id)
    (h3 : ∀ o ∈ oldRatings, '_' ∉ o.restaurant_id)
    (h4 : ∀ n ∈ newRatings, n.user_id ≠ 0) :
    (∀ row ∈ reassignReviewSentimentIds sents oldRatings newRatings,
       row.user_id ≠ some 0) ∧
    cleanInvalidIds sentimentUserId sentimentReviewId
        (reassignReviewSentimentIds sents oldRatings newRatings) CleanKind.sentiment
      = reassignReviewSentimentIds sents oldRatings newRatings := by
  have hmap := buildMapping_fold oldRatings newRatings [] (by intro kv h; simp at h)
  have hrow : ∀ row ∈ reassignReviewSentimentIds sents oldRatings newRatings,
      row.user_id ≠ some 0 ∧ row.review_id ≠ ['0'] := by
    intro row hr
    rw [reassign_eq_assignedRows] at hr
    obtain ⟨s, hs, m, hrmeq⟩ := mem_assignedRows _ sents [] row hr
    obtain ⟨o, ho, hsk⟩ := h2 s hs
    obtain ⟨hkeyeq, _⟩ := transientKey_tkey s o.user_id o.restaurant_id (h3 o ho) hsk
    have hex : ∃ n ∈ newRatings, matchesOld o n = true := by
      have hl := h1 o ho
      cases hf : newRatings.filter (fun n => matchesOld o n) with
      | nil => rw [hf] at hl; simp at hl
      | cons x t =>
        have hx : x ∈ newRatings.filter (fun n => matchesOld o n) := by
          rw [hf]
          exact List.mem_cons_self _ _
        exact ⟨x, (List.mem_filter.mp hx).1, (List.mem_filter.mp hx).2⟩
    have hsome := hmap.2.2 o ho hex
    have hfold : oldRatings.foldl (buildMappingStep newRatings) []
        = buildNewUserMapping oldRatings newRatings := rfl
    rw [hfold] at hsome
    obtain ⟨v, hv⟩ := Option.isSome_iff_exists.mp hsome
    have hvne : v ≠ 0 := by
      obtain ⟨kv, hkv, hkv2⟩ := mapGet_mem_values _ _ _ hv
      have hkv3 := hmap.1 kv (by rw [hfold]; exact hkv)
      obtain ⟨n, hn, he⟩ := hkv3
      rw [← hkv2, he]
      exact h4 n hn
    constructor
    · rw [hrmeq]
      show some ((mapGet (buildNewUserMapping oldRatings newRatings)
          (transientKey s)).getD 0) ≠ some 0
      rw [hkeyeq, hsk, hv]
      simp [hvne]
    · rw [hrmeq]
      show natStr (m + 1) ≠ ['0']
      exact natStr_ne_zeroStr (m + 1) (by omega)
  refine ⟨fun row hr => (hrow row hr).1, ?_⟩
  unfold cleanInvalidIds
  apply List.filter_eq_self.mpr
  intro row hr
  obtain ⟨hu, hrid⟩ := hrow row hr
  simp only [sentimentUserId, sentimentReviewId, Bool.and_eq_true, bne_iff_ne, ne_eq]
  refine ⟨⟨hu, ?_⟩, by simp⟩
  intro hc
  exact hrid (by injection hc)

/-- C1 (counterexample): the claim's own premises hold for this input (each
    old rating matches exactly one new rating, each sentiment row's review_id
    is an old rating's transient key), yet one restaurant_id contains an
    underscore and one matched new rating has user_id 0, so both reconciled
    rows come out with user_id 0 and the cleaning pass removes them all. -/
theorem reconciliation_counterexample :
    (∀ o ∈ c1Old, (c1New.filter (fun n => matchesOld o n)).length = 1) ∧
    (∀ s ∈ c1Sents, ∃ o ∈ c1Old, s.review_id = tkey o.user_id o.restaurant_id) ∧
    ((reassignReviewSentimentIds c1Sents c1Old c1New).map (·.user_id)
      = [some 0, some 0]) ∧
    cleanInvalidIds sentimentUserId sentimentReviewId
        (reassignReviewSentimentIds c1Sents c1Old c1New) CleanKind.sentiment = [] := by
  refine ⟨by decide, by decide, by decide, by decide⟩

/-- Witness for the amended C1 theorem at a concrete input. -/
theorem reconciliation_nonzero_and_clean_noop_witness :
    (∀ row ∈ reassignReviewSentimentIds c1wSents c1wOld c1wNew,
       row.user_id ≠ some 0) ∧
    cleanInvalidIds sentimentUserId sentimentReviewId
        (reassignReviewSentimentIds c1wSents c1wOld c1wNew) CleanKind.sentiment
      = reassignReviewSentimentIds c1wSents c1wOld c1wNew :=
  reconciliation_nonzero_and_clean_noop c1wSents c1wOld c1wNew
    (by decide) (by decide) (by decide) (by decide)

theorem parseCSVLineFuel_congr : ∀ (f1 f2 : Nat) (s current : Str) (inQ : Bool),
    s.length < f1 → s.length < f2 →
    parseCSVLineFuel f1 s current inQ = parseCSVLineFuel f2 s current inQ := by
  intro f1
  induction f1 with
  | zero => intro f2 s current inQ h1 _; omega
  | succ f ih =>
    intro f2 s current inQ h1 h2
    cases f2 with
    | zero => omega
    | succ g =>
      cases s with
      | nil => rfl
      | cons c rest =>
        cases rest with
        | nil =>
          simp only [List.length_cons, List.length_nil] at h1 h2
          rw [parseCSVLineFuel, parseCSVLineFuel]
          by_cases hq : c = '"'
          · rw [if_pos hq, if_pos hq]
            exact ih g [] current (!inQ) (by simp; omega) (by simp; omega)
          · rw [if_neg hq, if_neg hq]
            by_cases hc : c = ',' ∧ inQ = false
            · rw [if_pos hc, if_pos hc]
              congr 1
              exact ih g [] [] false (by simp; omega) (by simp; omega)
            · rw [if_neg hc, if_neg hc]
              exact ih g [] (c :: current) inQ (by simp; omega) (by simp; omega)
        | cons c2 rest2 =>
          simp only [List.length_cons] at h1 h2
          rw [parseCSVLineFuel, parseCSVLineFuel]
          by_cases hq : c = '"'
          · rw [if_pos hq, if_pos hq]
            by_cases hq2 : c2 = '"'
            · rw [if_pos hq2, if_pos hq2]
              exact ih g rest2 ('"' :: current) inQ (by omega) (by omega)
            · rw [if_neg hq2, if_neg hq2]
              exact ih g (c2 :: rest2) current (!inQ) (by simp; omega) (by simp; omega)
          · rw [if_neg hq, if_neg hq]
            by_cases hc : c = ',' ∧ inQ = false
            · rw [if_pos hc, if_pos hc]
              congr 1
              exact ih g (c2 :: rest2) [] false (by simp; omega) (by simp; omega)
            · rw [if_neg hc, if_neg hc]
              exact ih g (c2 :: rest2) (c :: current) inQ (by simp; omega) (by simp; omega)

theorem parseAux_nil (current : Str) (inQ : Bool) :
    parseCSVLineAux [] current inQ = [current.reverse] := rfl

theorem parseAux_quote_pair (rest2 current : Str) (inQ : Bool) :
    parseCSVLineAux ('"' :: '"' :: rest2) current inQ
      = parseCSVLineAux rest2 ('"' :: current) inQ := by
  show parseCSVLineFuel ((rest2.length + 2) + 1) ('"' :: '"' :: rest2) current inQ
      = parseCSVLineAux rest2 ('"' :: current) inQ
  rw [parseCSVLineFuel, if_pos rfl, if_pos rfl]
  exact parseCSVLineFuel_congr _ _ _ _ _ (by omega) (by omega)

theorem parseAux_quote_toggle (rest current : Str) (inQ : Bool)
    (h : rest.head? ≠ some '"') :
    parseCSVLineAux ('"' :: rest) current inQ
      = parseCSVLineAux rest current (!inQ) := by
  cases rest with
  | nil =>
    show parseCSVLineFuel (1 + 1) ['"'] current inQ
        = parseCSVLineAux [] current (!inQ)
    rw [parseCSVLineFuel, if_pos rfl]
    rfl
  | cons c2 rest2 =>
    have hq2 : c2 ≠ '"' := by
      intro he
      exact h (by rw [he]; rfl)
    show parseCSVLineFuel ((rest2.length + 2) + 1) ('"' :: c2 :: rest2) current inQ
        = parseCSVLineAux (c2 :: rest2) current (!inQ)
    rw [parseCSVLineFuel, if_pos rfl, if_neg hq2]
    exact parseCSVLineFuel_congr _ _ _ _ _ (by simp only [List.length_cons]; omega)
      (by simp only [List.length_cons]; omega)

theorem parseAux_comma (rest current : Str) :
    parseCSVLineAux (',' :: rest) current false
      = current.reverse :: parseCSVLineAux rest [] false := by
  cases rest with
  | nil =>
    show parseCSVLineFuel (1 + 1) [','] current false
        = current.reverse :: parseCSVLineAux [] [] false
    rw [parseCSVLineFuel, if_neg (by decide), if_pos ⟨rfl, rfl⟩]
    rfl
  | cons c2 rest2 =>
    show parseCSVLineFuel ((rest2.length + 2) + 1) (',' :: c2 :: rest2) current false
        = current.reverse :: parseCSVLineAux (c2 :: rest2) [] false
    rw [parseCSVLineFuel, if_neg (by decide), if_pos ⟨rfl, rfl⟩]
    rfl

theorem parseAux_other (c : Char) (rest current : Str) (inQ : Bool)
    (h1 : c ≠ '"') (h2 : ¬(c = ',' ∧ inQ = false)) :
    parseCSVLineAux (c :: rest) current inQ
      = parseCSVLineAux rest (c :: current) inQ := by
  cases rest with
  | nil =>
    show parseCSVLineFuel (1 + 1) [c] current inQ
        = parseCSVLineAux [] (c :: current) inQ
    rw [parseCSVLineFuel, if_neg h1, if_neg h2]
    rfl
  | cons c2 rest2 =>
    show parseCSVLineFuel ((rest2.length + 2) + 1) (c :: c2 :: rest2) current inQ
        = parseCSVLineAux (c2 :: rest2) (c :: current) inQ
    rw [parseCSVLineFuel, if_neg h1, if_neg h2]
    exact parseCSVLineFuel_congr _ _ _ _ _ (by simp only [List.length_cons]; omega)
      (by simp only [List.length_cons]; omega)

theorem readRowsAux_eq (headers : List Str) : ∀ (ls : List Str),
    readRowsAux headers ls
      = (ls.filter (fun l => !(jsTrim l).isEmpty
          && (parseCSVLine l).length == headers.length)).map
          (fun l => buildObj headers (parseCSVLine l)) := by
  intro ls
  induction ls with
  | nil => rfl
  | cons l rest ih =>
    rw [readRowsAux]
    by_cases hb : (jsTrim l).isEmpty
    · rw [if_pos hb]
      simp only [List.filter_cons, hb, Bool.not_true, Bool.false_and,
        Bool.false_eq_true, if_false, ih]
    · rw [if_neg hb]
      by_cases hlen : (parseCSVLine l).length ≠ headers.length
      · rw [if_pos hlen]
        have hpred : (!(jsTrim l).isEmpty
            && ((parseCSVLine l).length == headers.length)) = false := by
          simp [hlen]
        simp only [List.filter_cons, hpred, Bool.false_eq_true, if_false, ih]
      · rw [if_neg hlen]
        push_neg at hlen
        have hpred : (!(jsTrim l).isEmpty
            && ((parseCSVLine l).length == headers.length)) = true := by
          simp [hb, hlen]
        simp only [List.filter_cons, hpred, if_true, List.map_cons, ih]

/-- C9: the reader returns exactly the non-blank data rows whose parsed field
    count matches the header's field count, each turned into a record, in
    their original order; malformed rows are skipped and loading continues. -/
theorem readFromCSV_well_formed_rows (content : Str) :
    readFromCSV content
      = (((splitOnChar '\n' content).drop 1).filter
          (fun l => !(jsTrim l).isEmpty
            && (parseCSVLine l).length
              == (splitOnChar ',' ((splitOnChar '\n' content).headD [])).length)).map
          (fun l => buildObj (splitOnChar ',' ((splitOnChar '\n' content).headD []))
            (parseCSVLine l)) := by
  simp only [readFromCSV]
  by_cases h2 : (splitOnChar '\n' content).length < 2
  · rw [if_pos h2]
    cases hl : splitOnChar '\n' content with
    | nil => exact absurd hl (splitOnChar_ne_nil '\n' content)
    | cons a t =>
      rw [hl] at h2
      have ht : t = [] := by
        cases t with
        | nil => rfl
        | cons b u =>
          exfalso
          simp only [List.length_cons] at h2
          omega
      subst ht
      simp
  · rw [if_neg h2]
    exact readRowsAux_eq _ _

theorem mem_escapeQuotes (c : Char) : ∀ s : Str, c ∈ escapeQuotes s → c = '"' ∨ c ∈ s := by
  intro s
  induction s with
  | nil => intro h; simp [escapeQuotes] at h
  | cons a t ih =>
    intro h
    rw [escapeQuotes] at h
    by_cases ha : a = '"'
    · rw [if_pos ha] at h
      rcases List.mem_cons.mp h with h1 | h1
      · exact Or.inl h1
      · rcases List.mem_cons.mp h1 with h2 | h2
        · exact Or.inl h2
        · rcases ih h2 with h3 | h3
          · exact Or.inl h3
          · exact Or.inr (List.mem_cons_of_mem _ h3)
    · rw [if_neg ha] at h
      rcases List.mem_cons.mp h with h1 | h1
      · exact Or.inr (h1 ▸ List.mem_cons_self _ _)
      · rcases ih h1 with h3 | h3
        · exact Or.inl h3
        · exact Or.inr (List.mem_cons_of_mem _ h3)

theorem intStr_chars (i : Int) : ∀ c ∈ intStr i, c = '-' ∨ (48 ≤ c.toNat ∧ c.toNat ≤ 57) := by
  intro c hc
  unfold intStr at hc
  split_ifs at hc
  · rcases List.mem_cons.mp hc with h | h
    · exact Or.inl h
    · exact Or.inr (natStr_digit_range _ c h)
  · exact Or.inr (natStr_digit_range _ c hc)

theorem joinWith_cons_cons (sep : Char) (x y : Str) (rest : List Str) :
    joinWith sep (x :: y :: rest) = x ++ sep :: joinWith sep (y :: rest) := rfl

theorem mem_joinWith (sep : Char) (c : Char) : ∀ ls : List Str,
    c ∈ joinWith sep ls → c = sep ∨ ∃ l ∈ ls, c ∈ l := by
  intro ls
  induction ls with
  | nil => intro h; simp [joinWith] at h
  | cons l rest ih =>
    intro h
    cases rest with
    | nil =>
      exact Or.inr ⟨l, List.mem_singleton_self l, h⟩
    | cons l2 rest2 =>
      rw [joinWith_cons_cons] at h
      rcases List.mem_append.mp h with h1 | h1
      · exact Or.inr ⟨l, List.mem_cons_self _ _, h1⟩
      · rcases List.mem_cons.mp h1 with h2 | h2
        · exact Or.inl h2
        · rcases ih h2 with h3 | h3
          · exact Or.inl h3
          · obtain ⟨l3, hl3, hc3⟩ := h3
            exact Or.inr ⟨l3, List.mem_cons_of_mem _ hl3, hc3⟩

theorem joinWith_sep_mem (sep : Char) (l1 l2 : Str) (rest : List Str) :
    sep ∈ joinWith sep (l1 :: l2 :: rest) := by
  rw [joinWith_cons_cons]
  exact List.mem_append.mpr (Or.inr (List.mem_cons_self _ _))

theorem dropWhile_eq_self_of_not (p : Char → Bool) : ∀ s : Str,
    (∀ c ∈ s, p c = false) → s.dropWhile p = s := by
  intro s h
  cases s with
  | nil => rfl
  | cons a t =>
    rw [List.dropWhile_cons, if_neg]
    simp [h a (List.mem_cons_self a t)]

theorem jsTrim_eq_self (s : Str) (h : ∀ c ∈ s, isWs c = false) : jsTrim s = s := by
  unfold jsTrim
  rw [dropWhile_eq_self_of_not isWs s h,
    dropWhile_eq_self_of_not isWs s.reverse (fun c hc => h c (List.mem_reverse.mp hc)),
    List.reverse_reverse]

theorem mem_dropWhile_of_not (p : Char → Bool) (c : Char) : ∀ s : Str,
    c ∈ s → p c = false → c ∈ s.dropWhile p := by
  intro s
  induction s with
  | nil => intro h _; simp at h
  | cons a t ih =>
    intro h hp
    rw [List.dropWhile_cons]
    by_cases hpa : p a = true
    · rw [if_pos hpa]
      rcases List.mem_cons.mp h with h1 | h1
      · rw [h1] at hp
        rw [hp] at hpa
        simp at hpa
      · exact ih h1 hp
    · rw [if_neg hpa]
      exact h

theorem mem_jsTrim (c : Char) (s : Str) (h : c ∈ s) (hws : isWs c = false) :
    c ∈ jsTrim s := by
  unfold jsTrim
  rw [List.mem_reverse]
  apply mem_dropWhile_of_not isWs c _ _ hws
  rw [List.mem_reverse]
  exact mem_dropWhile_of_not isWs c s h hws

theorem jsTrim_not_empty_of_mem (c : Char) (s : Str) (h : c ∈ s)
    (hws : isWs c = false) : (jsTrim s).isEmpty = false := by
  have := mem_jsTrim c s h hws
  cases hq : jsTrim s with
  | nil => rw [hq] at this; simp at this
  | cons a t => rfl

theorem not_ws_of_range (c : Char) (h1 : 45 ≤ c.toNat) (h2 : c.toNat ≤ 57) :
    isWs c = false := by
  have hne : c ≠ ' ' ∧ c ≠ '\t' ∧ c ≠ '\n' ∧ c ≠ '\r' ∧ c ≠ '\x0b' ∧ c ≠ '\x0c' := by
    refine ⟨?_, ?_, ?_, ?_, ?_, ?_⟩ <;> (intro he; subst he; exact absurd h1 (by decide))
  simp [isWs, hne.1, hne.2.1, hne.2.2.1, hne.2.2.2.1, hne.2.2.2.2.1, hne.2.2.2.2.2]

theorem digitVal_digitChar (d : Nat) (h : d < 10) : digitVal (digitChar d) = d := by
  interval_cases d <;> decide

theorem digitsToNat_append_one (xs : Str) (c : Char) :
    digitsToNat (xs ++ [c]) = 10 * digitsToNat xs + digitVal c := by
  unfold digitsToNat
  rw [List.foldl_append]
  rfl

theorem digitsToNat_natStr : ∀ n : Nat, digitsToNat (natStr n) = n := by
  intro n
  induction n using Nat.strong_induction_on with
  | _ n ih =>
    rw [natStr_eq]
    by_cases h10 : n < 10
    · rw [if_pos h10]
      show 10 * 0 + digitVal (digitChar n) = n
      rw [digitVal_digitChar n h10]
      omega
    · rw [if_neg h10]
      rw [digitsToNat_append_one]
      have hdiv : n / 10 < n := Nat.div_lt_self (by omega) (by omega)
      rw [ih (n / 10) hdiv, digitVal_digitChar (n % 10) (Nat.mod_lt _ (by omega))]
      omega

theorem natStr_digits_bool (n : Nat) : ∀ c ∈ natStr n, isDigitChar c = true := by
  intro c hc
  have h := natStr_digit_range n c hc
  simp only [isDigitChar, Bool.and_eq_true, decide_eq_true_eq]
  omega

theorem head?_digit_of_digits (u : Str) (hd : ∀ c ∈ u, isDigitChar c = true) :
    ∀ c0, u.head? = some c0 → isDigitChar c0 = true := by
  intro c0 h0
  cases u with
  | nil => simp at h0
  | cons a t =>
    have : a = c0 := by injection h0
    exact this ▸ hd a (List.mem_cons_self a t)

theorem decimalParse_digit_run (u : Str) (hne : u ≠ [])
    (hd : ∀ c ∈ u, isDigitChar c = true) :
    decimalParse u = some ((digitsToNat u : Nat) : Rat) := by
  have hminus : ¬ u.head? = some '-' := by
    intro hc
    exact absurd (head?_digit_of_digits u hd '-' hc) (by decide)
  have hplus : ¬ u.head? = some '+' := by
    intro hc
    exact absurd (head?_digit_of_digits u hd '+' hc) (by decide)
  have htake : u.takeWhile isDigitChar = u := List.takeWhile_eq_self_iff.mpr hd
  have hdrop : u.dropWhile isDigitChar = [] := List.dropWhile_eq_nil_iff.mpr hd
  have hulen : ¬ u.length = 0 := by
    cases u with
    | nil => exact absurd rfl hne
    | cons a t => simp
  have hc1 : (u.head? = some '-') = False := by simp [hminus]
  have hcp : (u.head? = some '+') = False := by simp [hplus]
  have hc3 : ((none : Option Char) = some '.') = False := by simp
  have hc4 : (u.length = 0) = False := by simp [hulen]
  have hc5 : digitsToNat ([] : Str) = 0 := rfl
  have hnn : ((([] : Str)) = []) = True := by simp
  simp only [decimalParse, hc1, hcp, or_self, false_or, or_false, if_false, htake,
    hdrop, List.head?_nil, hc3, List.length_nil, Nat.add_zero, hc4, hc5, hnn,
    if_true, Nat.cast_zero, pow_zero, div_one, zero_div, add_zero, one_mul]

theorem jsNumber_natStr (m : Nat) : jsNumber (natStr m) = some ((m : Nat) : Rat) := by
  have hd := natStr_digits_bool m
  have hnws : ∀ c ∈ natStr m, isWs c = false := by
    intro c hc
    have := natStr_digit_range m c hc
    exact not_ws_of_range c (by omega) (by omega)
  have htrim : jsTrim (natStr m) = natStr m := jsTrim_eq_self _ hnws
  have hInf : ¬(natStr m = "Infinity".data ∨ natStr m = "+Infinity".data
      ∨ natStr m = "-Infinity".data) := by
    rintro (h | h | h)
    · have hm : 'I' ∈ natStr m := by rw [h]; decide
      exact absurd (hd 'I' hm) (by decide)
    · have hm : '+' ∈ natStr m := by rw [h]; decide
      exact absurd (hd '+' hm) (by decide)
    · have hm : '-' ∈ natStr m := by rw [h]; decide
      exact absurd (hd '-' hm) (by decide)
  simp only [jsNumber, htrim]
  rw [if_neg (natStr_ne_nil m), if_neg hInf,
    decimalParse_digit_run (natStr m) (natStr_ne_nil m) hd, digitsToNat_natStr]

theorem decimalParse_neg_digit_run (u : Str) (hne : u ≠ [])
    (hd : ∀ c ∈ u, isDigitChar c = true) :
    decimalParse ('-' :: u) = some (-((digitsToNat u : Nat) : Rat)) := by
  have htake : u.takeWhile isDigitChar = u := List.takeWhile_eq_self_iff.mpr hd
  have hdrop : u.dropWhile isDigitChar = [] := List.dropWhile_eq_nil_iff.mpr hd
  have hulen : ¬ u.length = 0 := by
    cases u with
    | nil => exact absurd rfl hne
    | cons a t => simp
  have hcm : (('-' :: u).head? = some '-') = True := by simp
  have hcp : (('-' :: u).head? = some '+') = False := by simp
  have hdrop1 : ('-' :: u).drop 1 = u := rfl
  have hc3 : ((none : Option Char) = some '.') = False := by simp
  have hc4 : (u.length = 0) = False := by simp [hulen]
  have hc5 : digitsToNat ([] : Str) = 0 := rfl
  have hnn : ((([] : Str)) = []) = True := by simp
  simp only [decimalParse, hcm, hcp, false_or, or_true, if_true, if_false, hdrop1,
    htake, hdrop, List.head?_nil, hc3, List.length_nil, Nat.add_zero, hc4, hc5,
    hnn, Nat.cast_zero, pow_zero, div_one, zero_div, add_zero, neg_mul, one_mul]

theorem jsNumber_intStr (i : Int) : jsNumber (intStr i) = some ((i : Int) : Rat) := by
  by_cases hneg : i < 0
  · have hstr : intStr i = '-' :: natStr i.natAbs := by
      unfold intStr
      rw [if_pos hneg]
    have hd := natStr_digits_bool i.natAbs
    have hnws : ∀ c ∈ intStr i, isWs c = false := by
      intro c hc
      rcases intStr_chars i c hc with h | h
      · subst h
        exact not_ws_of_range '-' (by decide) (by decide)
      · exact not_ws_of_range c (by omega) (by omega)
    have htrim : jsTrim (intStr i) = intStr i := jsTrim_eq_self _ hnws
    have hne : intStr i ≠ [] := by
      rw [hstr]
      simp
    have hInf : ¬(intStr i = "Infinity".data ∨ intStr i = "+Infinity".data
        ∨ intStr i = "-Infinity".data) := by
      rw [hstr]
      rintro (h | h | h)
      · have h2 := congrArg List.head? h
        rw [List.head?_cons] at h2
        exact absurd h2 (by decide)
      · have h2 := congrArg List.head? h
        rw [List.head?_cons] at h2
        exact absurd h2 (by decide)
      · have h2 : natStr i.natAbs = "Infinity".data := by
          have := congrArg List.tail h
          simpa using this
        have hm : 'I' ∈ natStr i.natAbs := by rw [h2]; decide
        exact absurd (hd 'I' hm) (by decide)
    simp only [jsNumber, htrim]
    rw [if_neg hne, if_neg hInf, hstr,
      decimalParse_neg_digit_run _ (natStr_ne_nil _) hd, digitsToNat_natStr]
    congr 1
    have h2 : ((i.natAbs : Nat) : Rat) = ((i.natAbs : Int) : Rat) := (Int.cast_natCast i.natAbs).symm
    rw [h2, show ((i.natAbs : Int)) = -i by omega]
    push_cast
    ring
  · have hstr : intStr i = natStr i.natAbs := by
      unfold intStr
      rw [if_neg hneg]
    rw [hstr, jsNumber_natStr]
    congr 1
    have h2 : ((i.natAbs : Nat) : Rat) = ((i.natAbs : Int) : Rat) := (Int.cast_natCast i.natAbs).symm
    rw [h2, show ((i.natAbs : Int)) = i by omega]

theorem intStr_ne_nil (i : Int) : intStr i ≠ [] := by
  unfold intStr
  split_ifs
  · simp
  · exact natStr_ne_nil _

theorem parseAux_plain : ∀ (s : Str), (∀ c ∈ s, c ≠ '"' ∧ c ≠ ',') →
    ∀ (rest current : Str),
    parseCSVLineAux (s ++ rest) current false
      = parseCSVLineAux rest (s.reverse ++ current) false := by
  intro s
  induction s with
  | nil => intro _ rest current; simp
  | cons c t ih =>
    intro h rest current
    have hc := h c (List.mem_cons_self c t)
    rw [List.cons_append,
      parseAux_other c (t ++ rest) current false hc.1 (fun hx => hc.2 hx.1),
      ih (fun d hd => h d (List.mem_cons_of_mem c hd)) rest (c :: current)]
    congr 1
    simp

theorem parseAux_quotedBody : ∀ (s : Str) (rest current : Str),
    rest.head? ≠ some '"' →
    parseCSVLineAux (escapeQuotes s ++ '"' :: rest) current true
      = parseCSVLineAux rest (s.reverse ++ current) false := by
  intro s
  induction s with
  | nil =>
    intro rest current h
    show parseCSVLineAux ('"' :: rest) current true = _
    rw [parseAux_quote_toggle rest current true h]
    simp
  | cons c t ih =>
    intro rest current h
    by_cases hq : c = '"'
    · subst hq
      have he : escapeQuotes ('"' :: t) = '"' :: '"' :: escapeQuotes t := by
        simp [escapeQuotes]
      rw [he, List.cons_append, List.cons_append, parseAux_quote_pair,
        ih rest ('"' :: current) h]
      congr 1
      simp
    · have he : escapeQuotes (c :: t) = c :: escapeQuotes t := by
        simp only [escapeQuotes, if_neg hq]
      rw [he, List.cons_append,
        parseAux_other c (escapeQuotes t ++ '"' :: rest) current true hq (by simp),
        ih rest (c :: current) h]
      congr 1
      simp

theorem parseAux_quotedField : ∀ (s : Str), (∃ c ∈ s, c ≠ '"') →
    ∀ (rest current : Str), rest.head? ≠ some '"' →
    parseCSVLineAux ('"' :: (escapeQuotes s ++ '"' :: rest)) current false
      = parseCSVLineAux rest (s.reverse ++ current) false := by
  intro s
  induction s with
  | nil =>
    intro h
    obtain ⟨c, hc, _⟩ := h
    simp at hc
  | cons c t ih =>
    intro h rest current hr
    by_cases hq : c = '"'
    · subst hq
      have ht : ∃ d ∈ t, d ≠ '"' := by
        obtain ⟨d, hd, hne⟩ := h
        rcases List.mem_cons.mp hd with h1 | h1
        · exact absurd h1 hne
        · exact ⟨d, h1, hne⟩
      have he : escapeQuotes ('"' :: t) = '"' :: '"' :: escapeQuotes t := by
        simp [escapeQuotes]
      rw [he, List.cons_append, List.cons_append, parseAux_quote_pair,
        ih ht rest ('"' :: current) hr]
      congr 1
      simp
    · have he : escapeQuotes (c :: t) = c :: escapeQuotes t := by
        simp only [escapeQuotes, if_neg hq]
      rw [he, List.cons_append,
        parseAux_quote_toggle (c :: (escapeQuotes t ++ '"' :: rest)) current false
          (by simp [hq])]
      have hb := parseAux_quotedBody (c :: t) rest current hr
      rw [he, List.cons_append] at hb
      simp only [Bool.not_false]
      rw [hb]

theorem parseAux_field (v : JsValue) (h : valOk v) (rest current : Str)
    (hr : rest.head? ≠ some '"') :
    parseCSVLineAux (csvValue v ++ rest) current false
      = parseCSVLineAux rest ((plainValue v).reverse ++ current) false := by
  cases v with
  | null => exact h.elim
  | num q =>
    have hden : q.den = 1 := h
    have he : csvValue (JsValue.num q) = intStr q.num := by
      show jsNumToStr q = intStr q.num
      unfold jsNumToStr
      rw [if_pos hden]
    have hp : plainValue (JsValue.num q) = intStr q.num := by
      show jsNumToStr q = intStr q.num
      unfold jsNumToStr
      rw [if_pos hden]
    rw [he, hp]
    apply parseAux_plain
    intro c hc
    rcases intStr_chars q.num c hc with h1 | h1
    · subst h1
      exact ⟨by decide, by decide⟩
    · constructor
      · intro hx
        rw [hx] at h1
        revert h1
        decide
      · intro hx
        rw [hx] at h1
        revert h1
        decide
  | str s =>
    obtain ⟨hnl, hn1, hn2, hqe⟩ := h
    by_cases hsp : hasSpecialChar s
    · have he : csvValue (JsValue.str s) = '"' :: (escapeQuotes s ++ ['"']) := by
        simp only [csvValue, if_pos hsp]
      rw [he, List.cons_append, List.append_assoc, List.singleton_append]
      have hnq : ∃ c ∈ s, c ≠ '"' := by
        by_contra hall
        push_neg at hall
        have hne : s ≠ [] := by
          intro hnil
          rw [hnil] at hsp
          exact absurd hsp (by decide)
        apply hqe
        constructor
        · rw [List.head?_eq_head hne]
          exact congrArg some (hall (s.head hne) (List.head_mem hne))
        · rw [List.getLast?_eq_getLast s hne]
          exact congrArg some (hall (s.getLast hne) (List.getLast_mem hne))
      exact parseAux_quotedField s hnq rest current hr
    · have he : csvValue (JsValue.str s) = s := by
        simp only [csvValue, if_neg hsp]
      rw [he]
      apply parseAux_plain
      intro c hc
      simp only [hasSpecialChar, Bool.or_eq_true, not_or] at hsp
      constructor
      · intro hx
        exact hsp.1.2 (List.elem_iff.mpr (hx ▸ hc))
      · intro hx
        exact hsp.1.1 (List.elem_iff.mpr (hx ▸ hc))

theorem parseAux_row : ∀ (vals : List JsValue) (v : JsValue) (current : Str),
    valOk v → (∀ w ∈ vals, valOk w) →
    parseCSVLineAux (joinWith ',' ((v :: vals).map csvValue)) current false
      = (current.reverse ++ plainValue v) :: vals.map plainValue := by
  intro vals
  induction vals with
  | nil =>
    intro v current hv _
    rw [show joinWith ',' ([v].map csvValue) = csvValue v ++ [] by simp [joinWith],
      parseAux_field v hv [] current (by simp), parseAux_nil]
    simp
  | cons w vals' ih =>
    intro v current hv hws
    rw [List.map_cons, List.map_cons, joinWith_cons_cons,
      parseAux_field v hv (',' :: joinWith ',' (csvValue w :: List.map csvValue vals'))
        current (fun hx => absurd (Option.some.inj hx) (by decide)),
      parseAux_comma, ← List.map_cons,
      ih w [] (hws w (List.mem_cons_self w vals'))
        (fun u hu => hws u (List.mem_cons_of_mem w hu))]
    simp

theorem parseCSVLine_row (vals : List JsValue) (hne : vals ≠ [])
    (hv : ∀ v ∈ vals, valOk v) :
    parseCSVLine (joinWith ',' (vals.map csvValue)) = vals.map plainValue := by
  cases vals with
  | nil => exact absurd rfl hne
  | cons v vals' =>
    unfold parseCSVLine
    rw [parseAux_row vals' v [] (hv v (List.mem_cons_self v vals'))
      (fun w hw => hv w (List.mem_cons_of_mem v hw))]
    simp

theorem splitOnChar_joinWith (c : Char) : ∀ ls : List Str, ls ≠ [] →
    (∀ l ∈ ls, c ∉ l) → splitOnChar c (joinWith c ls) = ls := by
  intro ls
  induction ls with
  | nil => intro h; exact absurd rfl h
  | cons l rest ih =>
    intro _ hmem
    cases rest with
    | nil => exact splitOnChar_not_mem c l (hmem l (List.mem_singleton_self l))
    | cons l2 rest2 =>
      rw [joinWith_cons_cons,
        splitOnChar_append c l _ (hmem l (List.mem_cons_self _ _)),
        ih (by simp) (fun x hx => hmem x (List.mem_cons_of_mem _ hx))]

theorem parseField_plainValue (v : JsValue) (h : valOk v) :
    parseField (plainValue v) = coerceValue v := by
  cases v with
  | null => exact h.elim
  | num q =>
    have hden : q.den = 1 := h
    have hpv : plainValue (JsValue.num q) = intStr q.num := by
      show jsNumToStr q = intStr q.num
      unfold jsNumToStr
      rw [if_pos hden]
    rw [hpv]
    have hnn : ¬(intStr q.num = "null".data ∨ intStr q.num = "undefined".data) := by
      rintro (hx | hx)
      · have hm : 'n' ∈ intStr q.num := by rw [hx]; decide
        rcases intStr_chars _ 'n' hm with h1 | h1
        · exact absurd h1 (by decide)
        · revert h1; decide
      · have hm : 'u' ∈ intStr q.num := by rw [hx]; decide
        rcases intStr_chars _ 'u' hm with h1 | h1
        · exact absurd h1 (by decide)
        · revert h1; decide
    have hnum : jsIsNumeric (intStr q.num) ∧ intStr q.num ≠ [] := by
      constructor
      · unfold jsIsNumeric
        rw [jsNumber_intStr]
        rfl
      · exact intStr_ne_nil q.num
    unfold parseField
    rw [if_neg hnn, if_pos hnum]
    unfold jsToNum
    rw [jsNumber_intStr]
    show JsValue.num ((q.num : Int) : Rat) = JsValue.num q
    congr 1
    have hd := Rat.num_div_den q
    rw [hden] at hd
    simpa using hd
  | str s =>
    obtain ⟨hnl, hn1, hn2, hqe⟩ := h
    show parseField s = coerceValue (JsValue.str s)
    have hco : coerceValue (JsValue.str s)
        = if jsIsNumeric s ∧ s ≠ [] then JsValue.num (jsToNum s)
          else JsValue.str s := rfl
    rw [hco]
    unfold parseField
    rw [if_neg (by rintro (hx | hx); exacts [hn1 hx, hn2 hx])]
    by_cases hnum : jsIsNumeric s ∧ s ≠ []
    · rw [if_pos hnum, if_pos hnum]
    · rw [if_neg hnum, if_neg hnum, if_neg hqe]

theorem buildObj_roundtrip : ∀ (rec : Rec), (∀ kv ∈ rec, valOk kv.2) →
    buildObj (rec.map (fun kv => kv.1)) ((rec.map (fun kv => kv.2)).map plainValue)
      = rec.map (fun kv => (kv.1, coerceValue kv.2)) := by
  intro rec
  induction rec with
  | nil => intro _; rfl
  | cons kv rest ih =>
    intro h
    simp only [List.map_cons, buildObj, List.zip_cons_cons]
    have hrest := ih (fun x hx => h x (List.mem_cons_of_mem _ hx))
    simp only [buildObj] at hrest
    rw [hrest, parseField_plainValue kv.2 (h kv (List.mem_cons_self _ _))]

theorem newline_not_mem_csvValue (v : JsValue) (h : valOk v) : '\n' ∉ csvValue v := by
  cases v with
  | null => exact h.elim
  | num q =>
    have hden : q.den = 1 := h
    have he : csvValue (JsValue.num q) = intStr q.num := by
      show jsNumToStr q = intStr q.num
      unfold jsNumToStr
      rw [if_pos hden]
    rw [he]
    intro hm
    rcases intStr_chars q.num _ hm with h1 | h1
    · exact absurd h1 (by decide)
    · revert h1; decide
  | str s =>
    obtain ⟨hnl, _, _, _⟩ := h
    simp only [csvValue]
    split_ifs with hsp
    · intro hm
      rcases List.mem_cons.mp hm with h1 | h1
      · exact absurd h1 (by decide)
      · rcases List.mem_append.mp h1 with h2 | h2
        · rcases mem_escapeQuotes '\n' s h2 with h3 | h3
          · exact absurd h3 (by decide)
          · exact hnl h3
        · rw [List.mem_singleton] at h2
          exact absurd h2 (by decide)
    · exact hnl

theorem readRowsAux_map (ks : List Str) (hklen : 2 ≤ ks.length) :
    ∀ recs : List Rec, (∀ rec ∈ recs, rec.map (fun kv => kv.1) = ks) →
    (∀ rec ∈ recs, ∀ kv ∈ rec, valOk kv.2) →
    readRowsAux ks (recs.map (fun rec =>
        joinWith ',' ((rec.map (fun kv => kv.2)).map csvValue)))
      = recs.map (fun rec => rec.map (fun kv => (kv.1, coerceValue kv.2))) := by
  intro recs
  induction recs with
  | nil => intro _ _; rfl
  | cons rec rest ih =>
    intro hkeys hvals
    have hklen_rec : rec.length = ks.length := by
      have := congrArg List.length (hkeys rec (List.mem_cons_self _ _))
      simpa using this
    have hvals_rec : ∀ v ∈ rec.map (fun kv => kv.2), valOk v := by
      intro v hv
      obtain ⟨kv, hkv, heq⟩ := List.mem_map.mp hv
      rw [← heq]
      exact hvals rec (List.mem_cons_self _ _) kv hkv
    have hlen2 : 2 ≤ (rec.map (fun kv => kv.2)).length := by
      simp only [List.length_map, hklen_rec]
      exact hklen
    obtain ⟨v1, v2, t, hshape⟩ :
        ∃ v1 v2 t, rec.map (fun kv => kv.2) = v1 :: v2 :: t := by
      cases hm : rec.map (fun kv => kv.2) with
      | nil => rw [hm] at hlen2; simp at hlen2
      | cons a w =>
        cases w with
        | nil => rw [hm] at hlen2; simp at hlen2
        | cons b t => exact ⟨a, b, t, rfl⟩
    have hcomma : ',' ∈ joinWith ',' ((rec.map (fun kv => kv.2)).map csvValue) := by
      rw [hshape, List.map_cons, List.map_cons]
      exact joinWith_sep_mem ',' _ _ _
    have hblank : ¬ ((jsTrim (joinWith ','
        ((rec.map (fun kv => kv.2)).map csvValue))).isEmpty = true) := by
      have hb0 := jsTrim_not_empty_of_mem ',' _ hcomma (by decide)
      rw [hb0]
      simp
    have hrne : rec.map (fun kv => kv.2) ≠ [] := by
      rw [hshape]
      simp
    have hparse : parseCSVLine (joinWith ',' ((rec.map (fun kv => kv.2)).map csvValue))
        = (rec.map (fun kv => kv.2)).map plainValue :=
      parseCSVLine_row _ hrne hvals_rec
    have hplen : ¬ ((parseCSVLine (joinWith ','
        ((rec.map (fun kv => kv.2)).map csvValue))).length ≠ ks.length) := by
      rw [hparse]
      simp [hklen_rec]
    have hobj : buildObj ks ((rec.map (fun kv => kv.2)).map plainValue)
        = rec.map (fun kv => (kv.1, coerceValue kv.2)) := by
      rw [← hkeys rec (List.mem_cons_self _ _)]
      exact buildObj_roundtrip rec (hvals rec (List.mem_cons_self _ _))
    rw [List.map_cons, readRowsAux, if_neg hblank, if_neg hplen, hparse, hobj,
      List.map_cons,
      ih (fun r hr => hkeys r (List.mem_cons_of_mem _ hr))
        (fun r hr => hvals r (List.mem_cons_of_mem _ hr))]

/-- C7 (amended): for a non-empty uniform table whose keys span at least two
    columns and are free of the delimiter, quote and newline characters, and
    whose field values survive the format (integral numbers; strings free of
    newlines that are not the null/undefined literals and not both
    quote-led and quote-ended), writing with writeToCSV and reading the
    produced content back with readFromCSV yields the same records with every
    field passed through the reader's numeric coercion.  Fields containing
    the delimiter or embedded quotes are covered; newline-bearing fields are
    not, and the original claim fails on them (see the counterexample). -/
theorem csv_roundtrip (data : List Rec) (ks : List Str)
    (hne : data ≠ [])
    (hkeys : ∀ rec ∈ data, rec.map (fun kv => kv.1) = ks)
    (hnodup : ks.Nodup)
    (hklen : 2 ≤ ks.length)
    (hkchar : ∀ k ∈ ks, ',' ∉ k ∧ '"' ∉ k ∧ '\n' ∉ k)
    (hvals : ∀ rec ∈ data, ∀ kv ∈ rec, valOk kv.2) :
    readFromCSV ((writeToCSV data).getD [])
      = data.map (fun rec => rec.map (fun kv => (kv.1, coerceValue kv.2))) := by
  cases data with
  | nil => exact absurd rfl hne
  | cons first rest =>
    have hw : writeToCSV (first :: rest)
        = some (joinWith '\n' (joinWith ',' (first.map (fun kv => kv.1))
            :: (first :: rest).map (fun item =>
              joinWith ',' ((item.map (fun kv => kv.2)).map csvValue)))) := rfl
    have hkfirst : first.map (fun kv => kv.1) = ks :=
      hkeys first (List.mem_cons_self _ _)
    rw [hw, Option.getD_some, hkfirst]
    have hnomem : ∀ p ∈ (joinWith ',' ks
        :: (first :: rest).map (fun item =>
            joinWith ',' ((item.map (fun kv => kv.2)).map csvValue))), '\n' ∉ p := by
      intro p hp hmem
      rcases List.mem_cons.mp hp with h1 | h1
      · subst h1
        rcases mem_joinWith ',' '\n' ks hmem with h2 | ⟨k, hk, hck⟩
        · exact absurd h2 (by decide)
        · exact (hkchar k hk).2.2 hck
      · obtain ⟨item, hitem, heq⟩ := List.mem_map.mp h1
        rw [← heq] at hmem
        rcases mem_joinWith ',' '\n' _ hmem with h2 | ⟨fld, hfld, hcf⟩
        · exact absurd h2 (by decide)
        · obtain ⟨v, hv, hveq⟩ := List.mem_map.mp hfld
          rw [← hveq] at hcf
          obtain ⟨kv, hkv, hkveq⟩ := List.mem_map.mp hv
          have hvok : valOk v := by
            rw [← hkveq]
            exact hvals item hitem kv hkv
          exact newline_not_mem_csvValue v hvok hcf
    have hsplit := splitOnChar_joinWith '\n'
      (joinWith ',' ks :: (first :: rest).map (fun item =>
        joinWith ',' ((item.map (fun kv => kv.2)).map csvValue)))
      (by simp) hnomem
    simp only [readFromCSV]
    rw [hsplit]
    have hlen2 : ¬ ((joinWith ',' ks :: (first :: rest).map (fun item =>
        joinWith ',' ((item.map (fun kv => kv.2)).map csvValue))).length < 2) := by
      simp only [List.length_cons, List.length_map]
      omega
    rw [if_neg hlen2]
    simp only [List.headD_cons, List.drop_succ_cons, List.drop_zero]
    have hks : splitOnChar ',' (joinWith ',' ks) = ks :=
      splitOnChar_joinWith ',' ks
        (by intro hx; rw [hx] at hklen; simp at hklen)
        (fun k hk => (hkchar k hk).1)
    rw [hks]
    exact readRowsAux_map ks hklen (first :: rest) hkeys hvals

/-- C7 (counterexample): the round trip as claimed fails on records whose
    string fields contain a newline (the reader splits the file on newlines
    before parsing quotes, so the field is torn apart and the remainder row
    is dropped for a field-count mismatch) and on quote-wrapped string fields
    (the reader strips the outer quotes); a single-column table additionally
    loses rows whose only field is empty (blank-line skip). -/
theorem csv_roundtrip_counterexample :
    readFromCSV ((writeToCSV c7Recs).getD [])
        ≠ c7Recs.map (fun rec => rec.map (fun kv => (kv.1, coerceValue kv.2))) ∧
    readFromCSV ((writeToCSV c7Recs2).getD [])
        ≠ c7Recs2.map (fun rec => rec.map (fun kv => (kv.1, coerceValue kv.2))) ∧
    (readFromCSV ((writeToCSV c7Recs2).getD [])).length ≠ c7Recs2.length := by
  decide

/-- Witness: the amended round trip holds at a concrete two-column table
    whose first field contains the delimiter and embedded quotes and whose
    second field is an integral number. -/
theorem csv_roundtrip_witness :
    readFromCSV ((writeToCSV c7wRecs).getD [])
      = c7wRecs.map (fun rec => rec.map (fun kv => (kv.1, coerceValue kv.2))) :=
  csv_roundtrip c7wRecs ["name".data, "n".data] (by decide) (by decide) (by decide)
    (by decide) (by decide) (by decide)

theorem processPlace_eq (detail : Str → Option (Restaurant × List Rating))
    (rem : Nat) (st : CollectState) (p : SearchPlace) :
    (rem ≤ st.newRestaurants.length ∧ processPlace detail rem st p = st) ∨
    (st.newRestaurants.length < rem ∧ placeIdOf p = none
      ∧ processPlace detail rem st p = st) ∨
    (st.newRestaurants.length < rem ∧ ∃ pid, placeIdOf p = some pid
      ∧ (pid = [] ∨ pid ∈ st.seen) ∧ processPlace detail rem st p = st) ∨
    (st.newRestaurants.length < rem ∧ ∃ pid, placeIdOf p = some pid
      ∧ ¬(pid = [] ∨ pid ∈ st.seen) ∧ detail pid = none
      ∧ processPlace detail rem st p = st) ∨
    (st.newRestaurants.length < rem ∧ ∃ pid r revs, placeIdOf p = some pid
      ∧ ¬(pid = [] ∨ pid ∈ st.seen) ∧ detail pid = some (r, revs)
      ∧ processPlace detail rem st p
        = { seen := st.seen ++ [pid],
            newRestaurants := st.newRestaurants ++ [r],
            newReviews := st.newReviews ++ revs }) := by
  unfold processPlace
  split
  · rename_i hc
    exact Or.inl ⟨hc, rfl⟩
  · rename_i hc
    have hlt : st.newRestaurants.length < rem := by omega
    split
    · rename_i hpid
      exact Or.inr (Or.inl ⟨hlt, hpid, rfl⟩)
    · rename_i pid hpid
      split
      · rename_i hskip
        exact Or.inr (Or.inr (Or.inl ⟨hlt, pid, hpid, hskip, rfl⟩))
      · rename_i hskip
        split
        · rename_i hd
          exact Or.inr (Or.inr (Or.inr (Or.inl ⟨hlt, pid, hpid, hskip, hd, rfl⟩)))
        · rename_i r revs hd
          exact Or.inr (Or.inr (Or.inr (Or.inr
            ⟨hlt, pid, r, revs, hpid, hskip, hd, rfl⟩)))

theorem processQuery_eq (search : Str → Option (List SearchPlace))
    (detail : Str → Option (Restaurant × List Rating))
    (rem : Nat) (st : CollectState) (q : Str) :
    (rem ≤ st.newRestaurants.length ∧ processQuery search detail rem st q = st) ∨
    (st.newRestaurants.length < rem ∧ search q = none
      ∧ processQuery search detail rem st q = st) ∨
    (st.newRestaurants.length < rem ∧ ∃ places, search q = some places
      ∧ processQuery search detail rem st q
        = places.foldl (processPlace detail rem) st) := by
  unfold processQuery
  split
  · rename_i hc
    exact Or.inl ⟨hc, rfl⟩
  · rename_i hc
    have hlt : st.newRestaurants.length < rem := by omega
    split
    · rename_i hs
      exact Or.inr (Or.inl ⟨hlt, hs, rfl⟩)
    · rename_i places hs
      exact Or.inr (Or.inr ⟨hlt, places, hs, rfl⟩)

theorem processPlace_mono (detail : Str → Option (Restaurant × List Rating))
    (rem : Nat) (st : CollectState) (p : SearchPlace) :
    (∀ x ∈ st.seen, x ∈ (processPlace detail rem st p).seen) ∧
    st.newRestaurants.length ≤ (processPlace detail rem st p).newRestaurants.length := by
  rcases processPlace_eq detail rem st p with ⟨_, he⟩ | ⟨_, _, he⟩
    | ⟨_, pid, _, _, he⟩ | ⟨_, pid, _, _, _, he⟩ | ⟨_, pid, r, revs, _, _, _, he⟩
  · rw [he]; exact ⟨fun x hx => hx, le_refl _⟩
  · rw [he]; exact ⟨fun x hx => hx, le_refl _⟩
  · rw [he]; exact ⟨fun x hx => hx, le_refl _⟩
  · rw [he]; exact ⟨fun x hx => hx, le_refl _⟩
  · rw [he]
    constructor
    · intro x hx
      simp [hx]
    · simp

theorem foldPlaces_mono (detail : Str → Option (Restaurant × List Rating))
    (rem : Nat) : ∀ (places : List SearchPlace) (st : CollectState),
    (∀ x ∈ st.seen, x ∈ (places.foldl (processPlace detail rem) st).seen) ∧
    st.newRestaurants.length
      ≤ (places.foldl (processPlace detail rem) st).newRestaurants.length := by
  intro places
  induction places with
  | nil => intro st; exact ⟨fun x hx => hx, le_refl _⟩
  | cons p rest ih =>
    intro st
    have h1 := processPlace_mono detail rem st p
    have h2 := ih (processPlace detail rem st p)
    exact ⟨fun x hx => h2.1 x (h1.1 x hx), le_trans h1.2 h2.2⟩

theorem processQuery_mono (search : Str → Option (List SearchPlace))
    (detail : Str → Option (Restaurant × List Rating))
    (rem : Nat) (st : CollectState) (q : Str) :
    (∀ x ∈ st.seen, x ∈ (processQuery search detail rem st q).seen) ∧
    st.newRestaurants.length
      ≤ (processQuery search detail rem st q).newRestaurants.length := by
  rcases processQuery_eq search detail rem st q with ⟨_, he⟩ | ⟨_, _, he⟩
    | ⟨_, places, _, he⟩
  · rw [he]; exact ⟨fun x hx => hx, le_refl _⟩
  · rw [he]; exact ⟨fun x hx => hx, le_refl _⟩
  · rw [he]; exact foldPlaces_mono detail rem places st

theorem foldQueries_mono (search : Str → Option (List SearchPlace))
    (detail : Str → Option (Restaurant × List Rating))
    (rem : Nat) : ∀ (qs : List Str) (st : CollectState),
    (∀ x ∈ st.seen, x ∈ (qs.foldl (processQuery search detail rem) st).seen) ∧
    st.newRestaurants.length
      ≤ (qs.foldl (processQuery search detail rem) st).newRestaurants.length := by
  intro qs
  induction qs with
  | nil => intro st; exact ⟨fun x hx => hx, le_refl _⟩
  | cons q rest ih =>
    intro st
    have h1 := processQuery_mono search detail rem st q
    have h2 := ih (processQuery search detail rem st q)
    exact ⟨fun x hx => h2.1 x (h1.1 x hx), le_trans h1.2 h2.2⟩

theorem processPlace_saturate (detail : Str → Option (Restaurant × List Rating))
    (rem : Nat) (st : CollectState) (p : SearchPlace) (pid : Str)
    (hlen : st.newRestaurants.length < rem)
    (hpid : placeIdOf p = some pid) (hne : pid ≠ []) (hd : (detail pid).isSome) :
    pid ∈ (processPlace detail rem st p).seen := by
  rcases processPlace_eq detail rem st p with ⟨hc, _⟩ | ⟨_, hn, _⟩
    | ⟨_, pid2, hp2, hskip, he⟩ | ⟨_, pid2, hp2, _, hdn, _⟩
    | ⟨_, pid2, r, revs, hp2, _, _, he⟩
  · omega
  · rw [hpid] at hn
    exact Option.noConfusion hn
  · rw [hpid] at hp2
    injection hp2 with hp2
    subst hp2
    rcases hskip with h | h
    · exact absurd h hne
    · rw [he]
      exact h
  · rw [hpid] at hp2
    injection hp2 with hp2
    subst hp2
    rw [hdn] at hd
    exact absurd hd (by simp)
  · rw [hpid] at hp2
    injection hp2 with hp2
    subst hp2
    rw [he]
    simp

theorem foldPlaces_saturate (detail : Str → Option (Restaurant × List Rating))
    (rem : Nat) : ∀ (places : List SearchPlace) (st : CollectState),
    (places.foldl (processPlace detail rem) st).newRestaurants.length < rem →
    ∀ p ∈ places, ∀ pid, placeIdOf p = some pid → pid ≠ [] → (detail pid).isSome →
    pid ∈ (places.foldl (processPlace detail rem) st).seen := by
  intro places
  induction places with
  | nil =>
    intro st _ p hp
    simp at hp
  | cons p0 rest ih =>
    intro st hlen p hp pid hpid hne hd
    have hfold : (p0 :: rest).foldl (processPlace detail rem) st
        = rest.foldl (processPlace detail rem) (processPlace detail rem st p0) := rfl
    rw [hfold] at hlen ⊢
    have hstep : st.newRestaurants.length < rem := by
      have h1 := (processPlace_mono detail rem st p0).2
      have h2 := (foldPlaces_mono detail rem rest (processPlace detail rem st p0)).2
      omega
    rcases List.mem_cons.mp hp with h0 | h0
    · subst h0
      have hsat := processPlace_saturate detail rem st p pid hstep hpid hne hd
      exact (foldPlaces_mono detail rem rest (processPlace detail rem st p)).1 pid hsat
    · exact ih (processPlace detail rem st p0) hlen p h0 pid hpid hne hd

theorem processQuery_saturate (search : Str → Option (List SearchPlace))
    (detail : Str → Option (Restaurant × List Rating))
    (rem : Nat) (st : CollectState) (q : Str) (places : List SearchPlace)
    (p : SearchPlace) (pid : Str)
    (hlen : (processQuery search detail rem st q).newRestaurants.length < rem)
    (hs : search q = some places) (hp : p ∈ places)
    (hpid : placeIdOf p = some pid) (hne : pid ≠ []) (hd : (detail pid).isSome) :
    pid ∈ (processQuery search detail rem st q).seen := by
  rcases processQuery_eq search detail rem st q with ⟨hc, he⟩ | ⟨_, hn, _⟩
    | ⟨_, places2, hs2, he⟩
  · rw [he] at hlen
    omega
  · rw [hs] at hn
    exact Option.noConfusion hn
  · rw [hs] at hs2
    injection hs2 with hs2
    subst hs2
    rw [he] at hlen ⊢
    exact foldPlaces_saturate detail rem places st hlen p hp pid hpid hne hd

theorem foldQueries_saturate (search : Str → Option (List SearchPlace))
    (detail : Str → Option (Restaurant × List Rating))
    (rem : Nat) : ∀ (qs : List Str) (st : CollectState),
    (qs.foldl (processQuery search detail rem) st).newRestaurants.length < rem →
    ∀ q ∈ qs, ∀ places, search q = some places → ∀ p ∈ places, ∀ pid,
      placeIdOf p = some pid → pid ≠ [] → (detail pid).isSome →
    pid ∈ (qs.foldl (processQuery search detail rem) st).seen := by
  intro qs
  induction qs with
  | nil =>
    intro st _ q hq
    simp at hq
  | cons q0 rest ih =>
    intro st hlen q hq places hs p hp pid hpid hne hd
    have hfold : (q0 :: rest).foldl (processQuery search detail rem) st
        = rest.foldl (processQuery search detail rem)
            (processQuery search detail rem st q0) := rfl
    rw [hfold] at hlen ⊢
    rcases List.mem_cons.mp hq with h0 | h0
    · subst h0
      have hmid : (processQuery search detail rem st q).newRestaurants.length < rem := by
        have h2 := (foldQueries_mono search detail rem rest
          (processQuery search detail rem st q)).2
        omega
      have hsat := processQuery_saturate search detail rem st q places p pid
        hmid hs hp hpid hne hd
      exact (foldQueries_mono search detail rem rest
        (processQuery search detail rem st q)).1 pid hsat
    · exact ih (processQuery search detail rem st q0) hlen q h0 places hs p hp
        pid hpid hne hd

theorem processPlace_noop (detail : Str → Option (Restaurant × List Rating))
    (rem : Nat) (st : CollectState) (p : SearchPlace)
    (h : ∀ pid, placeIdOf p = some pid → pid ≠ [] → (detail pid).isSome →
      pid ∈ st.seen) :
    processPlace detail rem st p = st := by
  rcases processPlace_eq detail rem st p with ⟨_, he⟩ | ⟨_, _, he⟩
    | ⟨_, pid, _, _, he⟩ | ⟨_, pid, _, _, _, he⟩
    | ⟨_, pid, r, revs, hpid, hns, hds, he⟩
  · exact he
  · exact he
  · exact he
  · exact he
  · push_neg at hns
    exact absurd (h pid hpid hns.1 (by rw [hds]; rfl)) hns.2

theorem foldPlaces_noop (detail : Str → Option (Restaurant × List Rating))
    (rem : Nat) : ∀ (places : List SearchPlace) (st : CollectState),
    (∀ p ∈ places, ∀ pid, placeIdOf p = some pid → pid ≠ [] →
      (detail pid).isSome → pid ∈ st.seen) →
    places.foldl (processPlace detail rem) st = st := by
  intro places
  induction places with
  | nil => intro st _; rfl
  | cons p0 rest ih =>
    intro st h
    have h0 : processPlace detail rem st p0 = st :=
      processPlace_noop detail rem st p0 (h p0 (List.mem_cons_self _ _))
    have hfold : (p0 :: rest).foldl (processPlace detail rem) st
        = rest.foldl (processPlace detail rem) (processPlace detail rem st p0) := rfl
    rw [hfold, h0]
    exact ih st (fun p hp => h p (List.mem_cons_of_mem _ hp))

theorem processQuery_noop (search : Str → Option (List SearchPlace))
    (detail : Str → Option (Restaurant × List Rating))
    (rem : Nat) (st : CollectState) (q : Str)
    (h : ∀ places, search q = some places → ∀ p ∈ places, ∀ pid,
      placeIdOf p = some pid → pid ≠ [] → (detail pid).isSome → pid ∈ st.seen) :
    processQuery search detail rem st q = st := by
  rcases processQuery_eq search detail rem st q with ⟨_, he⟩ | ⟨_, _, he⟩
    | ⟨_, places, hs, he⟩
  · exact he
  · exact he
  · rw [he]
    exact foldPlaces_noop detail rem places st (h places hs)

theorem foldQueries_noop (search : Str → Option (List SearchPlace))
    (detail : Str → Option (Restaurant × List Rating))
    (rem : Nat) : ∀ (qs : List Str) (st : CollectState),
    (∀ q ∈ qs, ∀ places, search q = some places → ∀ p ∈ places, ∀ pid,
      placeIdOf p = some pid → pid ≠ [] → (detail pid).isSome → pid ∈ st.seen) →
    qs.foldl (processQuery search detail rem) st = st := by
  intro qs
  induction qs with
  | nil => intro st _; rfl
  | cons q0 rest ih =>
    intro st h
    have h0 : processQuery search detail rem st q0 = st :=
      processQuery_noop search detail rem st q0 (h q0 (List.mem_cons_self _ _))
    have hfold : (q0 :: rest).foldl (processQuery search detail rem) st
        = rest.foldl (processQuery search detail rem)
            (processQuery search detail rem st q0) := rfl
    rw [hfold, h0]
    exact ih st (fun q hq => h q (List.mem_cons_of_mem _ hq))

theorem processPlace_seen_track (detail : Str → Option (Restaurant × List Rating))
    (rem : Nat) (st : CollectState) (p : SearchPlace) (base : List Str)
    (H : ∀ pid r revs, detail pid = some (r, revs) → r.restaurant_id = pid)
    (h : st.seen = base ++ st.newRestaurants.map (fun r => r.restaurant_id)) :
    (processPlace detail rem st p).seen
      = base ++ (processPlace detail rem st p).newRestaurants.map
          (fun r => r.restaurant_id) := by
  rcases processPlace_eq detail rem st p with ⟨_, he⟩ | ⟨_, _, he⟩
    | ⟨_, pid, _, _, he⟩ | ⟨_, pid, _, _, _, he⟩
    | ⟨_, pid, r, revs, hpid, hns, hds, he⟩
  · rw [he]; exact h
  · rw [he]; exact h
  · rw [he]; exact h
  · rw [he]; exact h
  · rw [he]
    simp only [List.map_append, List.map_cons, List.map_nil]
    rw [h, H pid r revs hds, List.append_assoc]

theorem foldPlaces_seen_track (detail : Str → Option (Restaurant × List Rating))
    (rem : Nat) (base : List Str)
    (H : ∀ pid r revs, detail pid = some (r, revs) → r.restaurant_id = pid) :
    ∀ (places : List SearchPlace) (st : CollectState),
    st.seen = base ++ st.newRestaurants.map (fun r => r.restaurant_id) →
    (places.foldl (processPlace detail rem) st).seen
      = base ++ (places.foldl (processPlace detail rem) st).newRestaurants.map
          (fun r => r.restaurant_id) := by
  intro places
  induction places with
  | nil => intro st h; exact h
  | cons p0 rest ih =>
    intro st h
    exact ih (processPlace detail rem st p0)
      (processPlace_seen_track detail rem st p0 base H h)

theorem processQuery_seen_track (search : Str → Option (List SearchPlace))
    (detail : Str → Option (Restaurant × List Rating))
    (rem : Nat) (st : CollectState) (q : Str) (base : List Str)
    (H : ∀ pid r revs, detail pid = some (r, revs) → r.restaurant_id = pid)
    (h : st.seen = base ++ st.newRestaurants.map (fun r => r.restaurant_id)) :
    (processQuery search detail rem st q).seen
      = base ++ (processQuery search detail rem st q).newRestaurants.map
          (fun r => r.restaurant_id) := by
  rcases processQuery_eq search detail rem st q with ⟨_, he⟩ | ⟨_, _, he⟩
    | ⟨_, places, _, he⟩
  · rw [he]; exact h
  · rw [he]; exact h
  · rw [he]
    exact foldPlaces_seen_track detail rem base H places st h

theorem foldQueries_seen_track (search : Str → Option (List SearchPlace))
    (detail : Str → Option (Restaurant × List Rating))
    (rem : Nat) (base : List Str)
    (H : ∀ pid r revs, detail pid = some (r, revs) → r.restaurant_id = pid) :
    ∀ (qs : List Str) (st : CollectState),
    st.seen = base ++ st.newRestaurants.map (fun r => r.restaurant_id) →
    (qs.foldl (processQuery search detail rem) st).seen
      = base ++ (qs.foldl (processQuery search detail rem) st).newRestaurants.map
          (fun r => r.restaurant_id) := by
  intro qs
  induction qs with
  | nil => intro st h; exact h
  | cons q0 rest ih =>
    intro st h
    exact ih (processQuery search detail rem st q0)
      (processQuery_seen_track search detail rem st q0 base H h)

theorem collect_none_eq (search : Str → Option (List SearchPlace))
    (detail : Str → Option (Restaurant × List Rating))
    (store : List Restaurant) (storeReviews : List Rating) (target : Nat) :
    collectRestaurantsInMadrid search detail store storeReviews target none
      = if target - store.length = 0 then
          ⟨store, storeReviews, 0, 0⟩
        else
          ⟨store ++ (queries25.foldl
              (processQuery search detail (target - store.length))
              ⟨store.map (fun r => r.restaurant_id), [], []⟩).newRestaurants,
            storeReviews ++ (queries25.foldl
              (processQuery search detail (target - store.length))
              ⟨store.map (fun r => r.restaurant_id), [], []⟩).newReviews,
            (queries25.foldl (processQuery search detail (target - store.length))
              ⟨store.map (fun r => r.restaurant_id), [], []⟩).newRestaurants.length,
            (queries25.foldl (processQuery search detail (target - store.length))
              ⟨store.map (fun r => r.restaurant_id), [], []⟩).newReviews.length⟩ :=
  rfl

/-- C8 (counterexample): the claim's scenario passes the same explicit
    existing-ID set to both runs.  With existingIds given, the store is not
    loaded, so the second run's seen set is seeded only from that same set:
    with an empty set, one available place and target 1, both runs fetch and
    store the same restaurant, and the second run reports 1 newly collected
    restaurant instead of the claimed 0. -/
theorem collect_dedup_counterexample :
    (collectRestaurantsInMadrid c8search c8detail [] [] 1 (some [])).restaurants
        = [⟨"p1".data⟩] ∧
    (collectRestaurantsInMadrid c8search c8detail [] [] 1
        (some [])).newRestaurantCount = 1 := by
  decide

attribute [irreducible] processPlace processQuery queries25

set_option maxHeartbeats 4000000 in
/-- C8 (amended): the collector deduplicates across runs when its own store is
    threaded between them (existingIds omitted, so the second run seeds its
    seen set from the stored restaurant ids), provided every successful detail
    fetch returns a restaurant whose stored id is the place id it was fetched
    under.  With the same directory responses, the second run then collects
    zero new restaurants and zero new reviews and leaves the restaurant table
    unchanged.  The claim's own scenario of passing the same explicit
    existing-ID set twice does NOT deduplicate (see the counterexample): an
    explicit set suppresses the store load, so the first run's collections
    are absent from the second run's seed. -/
theorem collect_store_threaded_rerun
    (search : Str → Option (List SearchPlace))
    (detail : Str → Option (Restaurant × List Rating))
    (store : List Restaurant) (storeReviews : List Rating) (target : Nat)
    (H : ∀ pid r revs, detail pid = some (r, revs) → r.restaurant_id = pid) :
    (collectRestaurantsInMadrid search detail
        (collectRestaurantsInMadrid search detail store storeReviews target
          none).restaurants
        (collectRestaurantsInMadrid search detail store storeReviews target
          none).reviews
        target none).newRestaurantCount = 0 ∧
    (collectRestaurantsInMadrid search detail
        (collectRestaurantsInMadrid search detail store storeReviews target
          none).restaurants
        (collectRestaurantsInMadrid search detail store storeReviews target
          none).reviews
        target none).newReviewCount = 0 ∧
    (collectRestaurantsInMadrid search detail
        (collectRestaurantsInMadrid search detail store storeReviews target
          none).restaurants
        (collectRestaurantsInMadrid search detail store storeReviews target
          none).reviews
        target none).restaurants
      = (collectRestaurantsInMadrid search detail store storeReviews target
          none).restaurants := by
  by_cases h1 : target - store.length = 0
  · have hr1 : collectRestaurantsInMadrid search detail store storeReviews target none
        = ⟨store, storeReviews, 0, 0⟩ := by
      rw [collect_none_eq search detail store storeReviews target, if_pos h1]
    rw [hr1]
    show (collectRestaurantsInMadrid search detail store storeReviews target
        none).newRestaurantCount = 0 ∧
      (collectRestaurantsInMadrid search detail store storeReviews target
        none).newReviewCount = 0 ∧
      (collectRestaurantsInMadrid search detail store storeReviews target
        none).restaurants = store
    rw [hr1]
    exact ⟨rfl, rfl, rfl⟩
  · obtain ⟨F, hF⟩ : ∃ F, queries25.foldl
        (processQuery search detail (target - store.length))
        ⟨store.map (fun r => r.restaurant_id), [], []⟩ = F := ⟨_, rfl⟩
    have hr1 : collectRestaurantsInMadrid search detail store storeReviews target none
        = ⟨store ++ F.newRestaurants, storeReviews ++ F.newReviews,
            F.newRestaurants.length, F.newReviews.length⟩ := by
      rw [collect_none_eq search detail store storeReviews target, if_neg h1, hF]
    rw [hr1]
    show (collectRestaurantsInMadrid search detail (store ++ F.newRestaurants)
        (storeReviews ++ F.newReviews) target none).newRestaurantCount = 0 ∧
      (collectRestaurantsInMadrid search detail (store ++ F.newRestaurants)
        (storeReviews ++ F.newReviews) target none).newReviewCount = 0 ∧
      (collectRestaurantsInMadrid search detail (store ++ F.newRestaurants)
        (storeReviews ++ F.newReviews) target none).restaurants
        = store ++ F.newRestaurants
    by_cases h2 : F.newRestaurants.length < target - store.length
    · have hrem2 : ¬ (target - (store ++ F.newRestaurants).length = 0) := by
        simp only [List.length_append]
        omega
      rw [collect_none_eq search detail (store ++ F.newRestaurants)
        (storeReviews ++ F.newReviews) target, if_neg hrem2]
      have htrack : F.seen = store.map (fun r => r.restaurant_id)
          ++ F.newRestaurants.map (fun r => r.restaurant_id) := by
        have ht := foldQueries_seen_track search detail (target - store.length)
          (store.map (fun r => r.restaurant_id)) H queries25
          ⟨store.map (fun r => r.restaurant_id), [], []⟩ (by simp)
        rw [hF] at ht
        exact ht
      have h2f : (queries25.foldl (processQuery search detail (target - store.length))
          ⟨store.map (fun r => r.restaurant_id), [], []⟩).newRestaurants.length
            < target - store.length := by
        rw [hF]
        exact h2
      have hsat : ∀ q ∈ queries25, ∀ places, search q = some places →
          ∀ p ∈ places, ∀ pid, placeIdOf p = some pid → pid ≠ [] →
          (detail pid).isSome → pid ∈ F.seen := by
        intro q hq places hs p hp pid hpid hne hd
        have hres := foldQueries_saturate search detail (target - store.length)
          queries25 ⟨store.map (fun r => r.restaurant_id), [], []⟩ h2f q hq places
          hs p hp pid hpid hne hd
        rw [hF] at hres
        exact hres
      have hnoop : queries25.foldl
          (processQuery search detail (target - (store ++ F.newRestaurants).length))
          ⟨(store ++ F.newRestaurants).map (fun r => r.restaurant_id), [], []⟩
          = ⟨(store ++ F.newRestaurants).map (fun r => r.restaurant_id), [], []⟩ := by
        apply foldQueries_noop
        intro q hq places hs p hp pid hpid hne hd
        have hmem := hsat q hq places hs p hp pid hpid hne hd
        rw [htrack] at hmem
        show pid ∈ (store ++ F.newRestaurants).map (fun r => r.restaurant_id)
        rw [List.map_append]
        exact hmem
      rw [hnoop]
      refine ⟨rfl, rfl, ?_⟩
      simp
    · have hrem2 : target - (store ++ F.newRestaurants).length = 0 := by
        simp only [List.length_append]
        omega
      rw [collect_none_eq search detail (store ++ F.newRestaurants)
        (storeReviews ++ F.newReviews) target, if_pos hrem2]
      exact ⟨rfl, rfl, rfl⟩

/-- Witness: the store-threaded rerun theorem at a directory whose every
    detail fetch fails; the id-consistency hypothesis is vacuous. -/
theorem collect_store_threaded_rerun_witness :
    (collectRestaurantsInMadrid (fun _ => none) (fun _ => none)
        (collectRestaurantsInMadrid (fun _ => none) (fun _ => none) [] [] 3
          none).restaurants
        (collectRestaurantsInMadrid (fun _ => none) (fun _ => none) [] [] 3
          none).reviews
        3 none).newRestaurantCount = 0 ∧
    (collectRestaurantsInMadrid (fun _ => none) (fun _ => none)
        (collectRestaurantsInMadrid (fun _ => none) (fun _ => none) [] [] 3
          none).restaurants
        (collectRestaurantsInMadrid (fun _ => none) (fun _ => none) [] [] 3
          none).reviews
        3 none).newReviewCount = 0 ∧
    (collectRestaurantsInMadrid (fun _ => none) (fun _ => none)
        (collectRestaurantsInMadrid (fun _ => none) (fun _ => none) [] [] 3
          none).restaurants
        (collectRestaurantsInMadrid (fun _ => none) (fun _ => none) [] [] 3
          none).reviews
        3 none).restaurants
      = (collectRestaurantsInMadrid (fun _ => none) (fun _ => none) [] [] 3
          none).restaurants :=
  collect_store_threaded_rerun (fun _ => none) (fun _ => none) [] [] 3
    (fun _ _ _ h => Option.noConfusion h)
